import Mathlib

/-!
Verification of the beartype PEP-compliant type-checking code generator.

This file shallowly embeds the core of
`beartype/_decor/_code/_pep/_pephint.py` (the breadth-first,
placeholder-substitution compiler `pep_code_check_hint`) together with the
snippet templates of `beartype/_decor/_code/_pep/_pepsnip.py`, and proves
the specified properties of that compiler.

Modelling conventions:

* Strings are modelled as `List Char` (`Chars`); the snippet templates are
  transcribed from `_pepsnip.py` with their `str.format` interpolation
  already applied, and the trailing `" and"`/`" or"` strip performed by
  `pep_code_check_hint` (via `LINE_RSTRIP_INDEX_AND`/`_OR`) is baked into
  the transcription, so the rendered text equals the post-munge text of
  the source.
* The code buffer is a list of fragments (`Frag`): literal template text,
  child-hint placeholders (`@[{id})!` from
  `PEP_CODE_HINT_CHILD_PLACEHOLDER_PREFIX`/`SUFFIX`), and second-stage
  forward-reference placeholders.  Rendering a fragment list concatenates
  the corresponding character strings; the non-collision property of the
  child placeholders (claim C6) is exactly what makes this tokenised view
  of `str.replace`-based substitution faithful.
* The hint classifier (`get_hint_pep_sign`, `is_hint_pep`,
  `is_hint_ignorable`, `is_hint_pep_tuple_empty`, ...) is the external
  oracle declared out of scope by the specification; its verdicts are
  recorded in the constructors of the `Hint` type (for example an
  ignorable child hint of a sequence is `Option.none`).
* Helpers of the repository that are not part of the sources
  (`replace_str_substrs`, `add_func_scope_type`/`types`/`attr`,
  `register_typistry_forwardref`, the root prefix/suffix snippets) are
  modelled from the specification; their definitions say so in their doc
  comments.
-/

set_option maxRecDepth 4000

namespace BeartypePep

/-- Character strings, the carrier of all generated code text. -/
abbrev Chars := List Char

/-- `strChars s` is the character list underlying a string literal. -/
def strChars (s : String) : Chars := s.data

/-- Fueled helper of `decChars`: the decimal digits of `n`, most
significant first, for any fuel of at least `n`. -/
def decCharsAux : Nat → Nat → Chars
  | 0, _ => []
  | _ + 1, 0 => []
  | fuel + 1, n + 1 =>
      decCharsAux fuel ((n + 1) / 10) ++ [Nat.digitChar ((n + 1) % 10)]

/-- Decimal digit characters of a natural number, most significant digit
first: the counterpart of Python `str(n)` as used by
`_enqueue_hint_child` to stringify `hint_child_placeholder_id`. -/
def decChars (n : Nat) : Chars :=
  if n = 0 then ['0'] else decCharsAux n n

/-- `PEP_CODE_HINT_CHILD_PLACEHOLDER_PREFIX = '@['` from `_pepsnip.py`. -/
def phOpenChars : Chars := ['@', '[']

/-- `PEP_CODE_HINT_CHILD_PLACEHOLDER_SUFFIX = ')!'` from `_pepsnip.py`. -/
def phCloseChars : Chars := [')', '!']

/-- The full text of the child-hint placeholder with identifier `id`,
as minted by `_enqueue_hint_child`: prefix, stringified identifier,
suffix. -/
def phText (id : Nat) : Chars := phOpenChars ++ decChars id ++ phCloseChars

-- ....................  code-buffer fragments  ....................

/-- `PEP_CODE_HINT_FORWARDREF_UNQUALIFIED_PLACEHOLDER_PREFIX` from
`_pepsnip.py` (the text is `"$\x7bFORWARDREF:"`). -/
def fwdOpenChars : Chars := strChars "$\x7bFORWARDREF:"

/-- `PEP_CODE_HINT_FORWARDREF_UNQUALIFIED_PLACEHOLDER_SUFFIX = ']?'`. -/
def fwdCloseChars : Chars := strChars "]?"

/-- One fragment of the growing code buffer `func_wrapper_code`: literal
template text, a child-hint placeholder (`@[{id})!`), or a second-stage
unqualified-forward-reference placeholder. -/
inductive Frag : Type where
  | text (s : Chars)
  | ph (id : Nat)
  | fwdref (name : Chars)
deriving DecidableEq, Repr

/-- Concrete text of a fragment. -/
def renderFrag : Frag → Chars
  | .text s => s
  | .ph id => phText id
  | .fwdref n => fwdOpenChars ++ n ++ fwdCloseChars

/-- Concrete text of a code buffer. -/
def render (l : List Frag) : Chars := l.flatMap renderFrag

/-- Number of occurrences of the child-hint placeholder `id` in a buffer. -/
def countPh : List Frag → Nat → Nat
  | [], _ => 0
  | .ph j :: t, id => (if j = id then 1 else 0) + countPh t id
  | _ :: t, id => countPh t id

/-- Number of occurrences of the forward-reference placeholder for `name`
in a buffer. -/
def countFwd : List Frag → Chars → Nat
  | [], _ => 0
  | .fwdref m :: t, name => (if m = name then 1 else 0) + countFwd t name
  | _ :: t, name => countFwd t name

/-- A fragment whose rendered text contains no `'@'` character (the
first character of every child-hint placeholder). -/
def fragAtFree : Frag → Bool
  | .text s => decide ('@' ∉ s)
  | .ph _ => true
  | .fwdref n => decide ('@' ∉ n)

/-- Global substitution of the placeholder `id` by the snippet `snip`,
the tokenised counterpart of `str.replace` on the code buffer. -/
def substPh : List Frag → Nat → List Frag → List Frag
  | [], _, _ => []
  | .ph j :: t, id, snip =>
      (if j = id then snip else [Frag.ph j]) ++ substPh t id snip
  | f :: t, id, snip => f :: substPh t id snip

-- ....................  hint data model  ....................

/-- One argument subscripting a PEP 593 `Annotated` metahint after the
first (the underlying hint): either a beartype validator (an instance of
`beartype._vale._valesub._SubscriptedIs`, whose validation code and
scope are abstracted by the tag `k`) or any other object. -/
inductive MetaArg : Type where
  | validator (k : Nat)
  | other (k : Nat)
deriving DecidableEq, Repr

/-- Whether a metahint argument is a beartype validator
(`isinstance(arg, _SubscriptedIs)` in the source). -/
def MetaArg.isValidator : MetaArg → Bool
  | .validator _ => true
  | .other _ => false

/-- A hint as seen by the code generator.  The external hint classifier
(`get_hint_pep_sign`, `is_hint_pep`, `is_hint_ignorable`,
`is_hint_pep_tuple_empty`, `get_hint_pep_stdlib_type`, ...) is the
oracle declared out of scope by the specification; its verdicts are
recorded in the constructors:

* `cls t`: a PEP-noncompliant non-`typing` class with identity `t`
  (the `isinstance(hint_curr, type)` branch);
* `stdOrigin t`: a PEP-compliant hint that is its own sign or is only
  shallowly supported, checked via its stdlib origin type `t`;
* `noReturn`: the `typing.NoReturn` singleton;
* `unsupported tag`: a PEP-compliant hint whose sign
  `die_if_hint_pep_sign_unsupported` rejects;
* `notPep tag`: an object that is neither PEP-compliant nor a class;
* `union nonpep pep`: a union whose children the classifier splits into
  PEP-noncompliant plain types (by identity) and PEP-compliant child
  hints — the partition loop itself is modelled separately by
  `partition_union_children`.  The source collects both groups in Python
  sets; since the `typing` module already deduplicates the arguments of a
  union at construction time, the sets are modelled as the argument
  lists themselves (one admissible, deterministic iteration order);
* `seqStd origin child`: a standard sequence hint (or a variadic tuple
  `Tuple[T, ...]`, which the dispatch treats identically), with
  `child = none` when the lone child hint is ignorable;
* `tupleFixed emptyForm args`: a fixed-length tuple hint;  `emptyForm`
  is the verdict of `is_hint_pep_tuple_empty` (the `Tuple[()]` form),
  and an `args` entry is `none` when that child hint is ignorable;
* `forwardref name`: a PEP 484 forward reference;
* `annotated base meta`: a PEP 593 `Annotated[base, *meta]` metahint. -/
inductive Hint : Type where
  | cls (t : Nat)
  | stdOrigin (t : Nat)
  | noReturn
  | unsupported (tag : Nat)
  | notPep (tag : Nat)
  | union (nonpep : List Nat) (pep : List Hint)
  | seqStd (origin : Nat) (child : Option Hint)
  | tupleFixed (emptyForm : Bool) (args : List (Option Hint))
  | forwardref (name : Chars)
  | annotated (base : Hint) (meta : List MetaArg)

/-- Whether a hint is an `Annotated` metahint (`is_hint_pep593`). -/
def Hint.isAnnotated : Hint → Bool
  | .annotated _ _ => true
  | _ => false

/-- `is_hint_pep593_beartype`: the metahint's second argument (the first
metadata argument) is a beartype validator. -/
def is_hint_pep593_beartype (meta : List MetaArg) : Bool :=
  match meta with
  | .validator _ :: _ => true
  | _ => false

/-- The REDUCTION step of `pep_code_check_hint` (one-shot, applied to
the currently visited hint before sign dispatch): a non-beartype
`Annotated` metahint is replaced by its underlying hint
(`get_hint_pep593_metahint`).  The reductions to `NoneType`, from PEP
484 IO generics and from new types act on hint forms outside this
model's universe and are resolved by the external classifier oracle. -/
def reduceHint : Hint → Hint
  | .annotated b meta =>
      if is_hint_pep593_beartype meta then .annotated b meta else b
  | h => h

mutual

/-- Number of structural hint nodes, used as the fuel bound of the
breadth-first search. -/
def hintSize : Hint → Nat
  | .cls _ => 1
  | .stdOrigin _ => 1
  | .noReturn => 1
  | .unsupported _ => 1
  | .notPep _ => 1
  | .union _ pep => 1 + hintSizeList pep
  | .seqStd _ none => 1
  | .seqStd _ (some c) => 1 + hintSize c
  | .tupleFixed _ args => 1 + hintSizeOpt args
  | .forwardref _ => 1
  | .annotated b _ => 1 + hintSize b

def hintSizeList : List Hint → Nat
  | [] => 0
  | h :: t => hintSize h + hintSizeList t

def hintSizeOpt : List (Option Hint) → Nat
  | [] => 0
  | none :: t => hintSizeOpt t
  | some h :: t => hintSize h + hintSizeOpt t

end

mutual

/-- Well-formedness of a model hint, reflecting invariants that the
`typing` module guarantees for real hints: nested `Annotated` metahints
are flattened at construction (so the underlying hint of a metahint is
never itself a metahint) and forward-reference classnames are Python
identifiers (so they never contain the `'@'` character). -/
def hintWf : Hint → Bool
  | .cls _ => true
  | .stdOrigin _ => true
  | .noReturn => true
  | .unsupported _ => true
  | .notPep _ => true
  | .union _ pep => hintWfList pep
  | .seqStd _ none => true
  | .seqStd _ (some c) => hintWf c
  | .tupleFixed _ args => hintWfOpt args
  | .forwardref n => decide ('@' ∉ n)
  | .annotated b _ => !b.isAnnotated && hintWf b

def hintWfList : List Hint → Bool
  | [] => true
  | h :: t => hintWf h && hintWfList t

def hintWfOpt : List (Option Hint) → Bool
  | [] => true
  | none :: t => hintWfOpt t
  | some h :: t => hintWf h && hintWfOpt t

end

/-- The child hints that the visit of an (already reduced) hint enqueues
for later breadth-first expansion: the PEP-compliant union
alternatives, the lone unignorable sequence child, the unignorable
fixed-tuple children, or the metahint's underlying hint. -/
def enqueuedChildren : Hint → List Hint
  | .union _ pep => pep
  | .seqStd _ (some c) => [c]
  | .tupleFixed false args => args.filterMap id
  | .annotated b _ => [b]
  | _ => []

mutual

/-- Classnames of the forward-reference hints visitable from a hint,
restricted to qualified names (`qual = true`, containing a `'.'`) or
unqualified names (`qual = false`).  Recursion follows exactly the
children that the breadth-first search enqueues. -/
def collectFwd (qual : Bool) : Hint → List Chars
  | .forwardref n => if decide ('.' ∈ n) = qual then [n] else []
  | .union _ pep => collectFwdList qual pep
  | .seqStd _ none => []
  | .seqStd _ (some c) => collectFwd qual c
  | .tupleFixed true _ => []
  | .tupleFixed false args => collectFwdOpt qual args
  | .annotated b _ => collectFwd qual b
  | _ => []

def collectFwdList (qual : Bool) : List Hint → List Chars
  | [] => []
  | h :: t => collectFwd qual h ++ collectFwdList qual t

def collectFwdOpt (qual : Bool) : List (Option Hint) → List Chars
  | [] => []
  | none :: t => collectFwdOpt qual t
  | some h :: t => collectFwd qual h ++ collectFwdOpt qual t

end

-- ....................  scopes and auxiliary state  ....................

/-- A value bound in the wrapper function's local scope
(`func_wrapper_locals`): a type, a tuple of types, the beartypistry
singleton, `random.getrandbits`, or the locals of a validator. -/
inductive ScopeVal : Type where
  | typ (t : Nat)
  | typs (ts : List Nat)
  | typistry
  | getrandbits
  | validatorLocal (k : Nat)
deriving DecidableEq, Repr

/-- Modelled from the spec: the Scope Builder (§4.2, `add_func_scope_*`
helpers, not under `src/`) binds a value at most once per compilation;
binding an already-bound value is a no-op.  A Python set's `add` method
behaves identically, so this doubles as the model of set insertion. -/
def pySetInsert {γ : Type} [DecidableEq γ] (s : List γ) (x : γ) : List γ :=
  if x ∈ s then s else s ++ [x]

/-- One record of the `hints_meta` queue (a `HINT_META_INDEX_*` tuple):
the child hint, its placeholder identifier, the pith expression reaching
its runtime value, and the indentation level. -/
structure WorkItem : Type where
  hint : Hint
  ph : Nat
  pith : Chars
  indent : Nat

/-- The mutable compilation state threaded through the breadth-first
search: the code buffer, the wrapper scope, the set of unqualified
forward-reference classnames (`None` until first needed, as in the
source), the random-integer flag, the next placeholder identifier (the
source stores `hint_child_placeholder_id`, this value minus one), the
assignment-expression counter, and the number of placeholder
substitutions performed so far. -/
structure BfsSt : Type where
  code : List Frag
  scope : List ScopeVal
  fwdrefs : Option (List Chars)
  randNeeded : Bool
  nextPh : Nat
  pithCtr : Nat
  substs : Nat
deriving DecidableEq, Repr

/-- The 3-tuple returned by `pep_code_check_hint`. -/
structure CheckOut : Type where
  code : List Frag
  scope : List ScopeVal
  fwdrefs : List Chars
deriving DecidableEq, Repr

/-- The exceptions that compilation can raise.  `outOfFuel` is a model
artifact of bounding the loop by structural fuel and corresponds to no
source behaviour. -/
inductive Err : Type where
  | unsupportedSign (tag : Nat)
  | notPepHint (tag : Nat)
  | pep484NoReturn
  | pep593Mixed (k : Nat)
  | unionUnsubscripted
  | placeholderMissing
  | rootNotChecked
  | outOfFuel
deriving DecidableEq, Repr

/-- Modelled from the spec: `replace_str_substrs` (from
`beartype._util.text.utiltextmunge`, not under `src/`) performs a
global substring substitution and fails when the old substring does not
occur in the text. -/
def replace_str_substrs (buf : List Frag) (id : Nat) (snip : List Frag) :
    Except Err (List Frag) :=
  if countPh buf id = 0 then .error .placeholderMissing
  else .ok (substPh buf id snip)

-- ....................  snippet texts  ....................

/-- `PEP_CODE_PITH_ROOT_NAME = '__beartype_pith_0'` from `_pepsnip.py`. -/
def pithRootChars : Chars := strChars "__beartype_pith_0"

/-- `PEP_CODE_PITH_NAME_PREFIX = '__beartype_pith_'` from `_pepsnip.py`. -/
def pithNameChars : Chars := strChars "__beartype_pith_"

/-- `CODE_INDENT_1`-based indentation: `n` levels of four spaces. -/
def indentChars : Nat → Chars
  | 0 => []
  | n + 1 => indentChars n ++ strChars "    "

/-- The PEP 572 assignment-expression machinery of `pep_code_check_hint`
(the `IS_PYTHON_AT_LEAST_3_8` path, modelled for Python ≥ 3.8): when the
current pith is not the root pith, increment the name counter and
localize the pith to `__beartype_pith_{n}` via
`PEP_CODE_PITH_ASSIGN_EXPR`; otherwise both expressions are the pith
expression itself.  Returns the new counter, `pith_curr_assign_expr`
and `pith_curr_assigned_expr`. -/
def pithAssignCalc (pithCtr : Nat) (pithCurrExpr : Chars) :
    Nat × Chars × Chars :=
  if pithCurrExpr ≠ pithRootChars then
    (pithCtr + 1,
     pithNameChars ++ decChars (pithCtr + 1) ++ strChars " := " ++ pithCurrExpr,
     pithNameChars ++ decChars (pithCtr + 1))
  else (pithCtr, pithCurrExpr, pithCurrExpr)

/-- Modelled from the spec: the stable identifier that the Scope Builder
(`add_func_scope_type`, not under `src/`) returns for a bound type. -/
def typeExprChars (t : Nat) : Chars := strChars "__beartype_cls_" ++ decChars t

/-- Modelled from the spec: the stable identifier that the Scope Builder
(`add_func_scope_types`, not under `src/`) returns for a bound tuple of
types. -/
def typesExprChars (ts : List Nat) : Chars :=
  strChars "__beartype_clstuple" ++ (ts.flatMap fun t => strChars "_" ++ decChars t)

/-- Modelled from the spec: the expression that
`register_typistry_forwardref` (not under `src/`) returns for a
qualified forward-reference classname, indexing the beartypistry
singleton passed as the hidden `__beartypistry` parameter. -/
def typistryExprChars (name : Chars) : Chars :=
  strChars "__beartypistry[" ++ name ++ strChars "]"

/-- `PEP_CODE_CHECK_HINT_NONPEP_TYPE` instantiated:
`isinstance({pith_curr_expr}, {hint_curr_expr})`. -/
def isinstanceChars (pith clsE : Chars) : Chars :=
  strChars "isinstance(" ++ pith ++ strChars ", " ++ clsE ++ strChars ")"

/-- `PEP_CODE_CHECK_HINT_SEQUENCE_STANDARD` instantiated, up to the
child placeholder. -/
def seqCheckPreChars (ind : Nat) (assignE assignedE originE : Chars) : Chars :=
  strChars "(\n" ++ indentChars ind ++
  strChars "    # True only if this pith shallowly satisfies this hint.\n" ++
  indentChars ind ++ strChars "    isinstance(" ++ assignE ++ strChars ", " ++
  originE ++ strChars ") and\n" ++ indentChars ind ++
  strChars "    # True only if either this pith is empty *OR* this pith is\n" ++
  indentChars ind ++
  strChars "    # both non-empty and deeply satisfies this hint.\n" ++
  indentChars ind ++ strChars "    (not " ++ assignedE ++ strChars " or "

/-- `PEP_CODE_CHECK_HINT_SEQUENCE_STANDARD` instantiated, after the
child placeholder. -/
def seqCheckSufChars (ind : Nat) : Chars :=
  strChars ")\n" ++ indentChars ind ++ strChars ")"

/-- `PEP_CODE_CHECK_HINT_SEQUENCE_STANDARD_PITH_CHILD_EXPR` instantiated:
the pseudo-randomly indexed item of the current pith. -/
def seqPithChildChars (assignedE : Chars) : Chars :=
  assignedE ++ strChars "[__beartype_random_int % len(" ++ assignedE ++
  strChars ")]"

/-- `PEP_CODE_CHECK_HINT_TUPLE_FIXED_PREFIX` instantiated.  The version
of `_pepsnip.py` under `src/` still formats a `hint_curr_expr` slot that
the `_pephint.py` under `src/` no longer supplies; in the composition
the two files are written for, the isinstance test of this template
hardcodes the `tuple` builtin, which is what is transcribed here.  The
trailing `" and"` of the template is accounted to the following
component, matching the post-munge text. -/
def tupleFixedPreChars (ind : Nat) (assignE : Chars) : Chars :=
  strChars "(\n" ++ indentChars ind ++
  strChars "    # True only if this pith is a tuple.\n" ++
  indentChars ind ++ strChars "    isinstance(" ++ assignE ++
  strChars ", tuple)"

/-- `PEP_CODE_CHECK_HINT_TUPLE_FIXED_EMPTY` instantiated (with the
joining `" and"` of the preceding component at its head). -/
def tupleEmptyChars (ind : Nat) (assignedE : Chars) : Chars :=
  strChars " and\n" ++ indentChars ind ++
  strChars "    # True only if this tuple is empty.\n" ++
  indentChars ind ++ strChars "    not " ++ assignedE

/-- `PEP_CODE_CHECK_HINT_TUPLE_FIXED_LEN` instantiated. -/
def tupleLenChars (ind : Nat) (assignedE : Chars) (n : Nat) : Chars :=
  strChars " and\n" ++ indentChars ind ++
  strChars "    # True only if this tuple is of the expected length.\n" ++
  indentChars ind ++ strChars "    len(" ++ assignedE ++ strChars ") == " ++
  decChars n

/-- `PEP_CODE_CHECK_HINT_TUPLE_FIXED_NONEMPTY_CHILD` instantiated, up to
the child placeholder. -/
def tupleChildSepChars (ind : Nat) : Chars :=
  strChars " and\n" ++ indentChars ind ++
  strChars "    # True only if this item of this non-empty tuple deeply\n" ++
  indentChars ind ++ strChars "    # satisfies this child hint.\n" ++
  indentChars ind ++ strChars "    "

/-- `PEP_CODE_CHECK_HINT_TUPLE_FIXED_SUFFIX` instantiated. -/
def tupleFixedSufChars (ind : Nat) : Chars :=
  strChars "\n" ++ indentChars ind ++ strChars ")"

/-- `PEP_CODE_CHECK_HINT_TUPLE_FIXED_NONEMPTY_PITH_CHILD_EXPR`
instantiated: the item of the tuple at the fixed child index. -/
def tuplePithChildChars (assignedE : Chars) (idx : Nat) : Chars :=
  assignedE ++ strChars "[" ++ decChars idx ++ strChars "]"

/-- `PEP484_CODE_CHECK_HINT_UNION_PREFIX = '('`. -/
def unionPreChars : Chars := strChars "("

/-- `PEP484_CODE_CHECK_HINT_UNION_CHILD_NONPEP` instantiated: the single
combined isinstance test over the tuple of all PEP-noncompliant union
alternatives. -/
def unionNonpepChars (ind : Nat) (pith typesE : Chars) : Chars :=
  strChars "\n" ++ indentChars ind ++ strChars "    isinstance(" ++ pith ++
  strChars ", " ++ typesE ++ strChars ")"

/-- `PEP484_CODE_CHECK_HINT_UNION_CHILD_PEP` instantiated, up to the
child placeholder; `first` is true for the first disjunct of the union,
which carries no `" or"` join (the post-munge accounting of the
template's trailing `" or"`). -/
def unionChildSepChars (first : Bool) (ind : Nat) : Chars :=
  (if first then [] else strChars " or") ++ strChars "\n" ++ indentChars ind ++
  strChars "    "

/-- `PEP484_CODE_CHECK_HINT_UNION_SUFFIX` instantiated. -/
def unionSufChars (ind : Nat) : Chars :=
  strChars "\n" ++ indentChars ind ++ strChars ")"

/-- Modelled from the spec: the `Annotated`-metahint snippet opening
(`PEP593_CODE_CHECK_HINT_SUBSCRIPTEDIS_PREFIX`, not under `src/`): a
parenthesised conjunction whose first conjunct is the child placeholder
of the underlying hint. -/
def pep593PreChars (ind : Nat) : Chars :=
  strChars "(\n" ++ indentChars ind ++ strChars "    "

/-- Modelled from the spec: one validator conjunct
(`PEP593_CODE_CHECK_HINT_SUBSCRIPTEDIS_CHILD`, not under `src/`): the
validator's opaque boolean expression (abstracted by its tag `k`)
applied to the current pith. -/
def pep593ChildChars (ind : Nat) (k : Nat) (assignedE : Chars) : Chars :=
  strChars " and\n" ++ indentChars ind ++ strChars "    __beartype_is_valid_" ++
  decChars k ++ strChars "(" ++ assignedE ++ strChars ")"

/-- Modelled from the spec: the `Annotated`-metahint snippet closing
(`PEP593_CODE_CHECK_HINT_SUBSCRIPTEDIS_SUFFIX`, not under `src/`). -/
def pep593SufChars (ind : Nat) : Chars :=
  strChars "\n" ++ indentChars ind ++ strChars ")"

/-- Modelled from the spec: `PEP_CODE_CHECK_HINT_ROOT_PREFIX` (not under
`src/`), the root template text preceding the root placeholder. -/
def rootPreChars : Chars := strChars "        if not "

/-- Modelled from the spec: `PEP_CODE_CHECK_HINT_ROOT_SUFFIX` (not
under `src/`), the trailing code raising a human-readable exception
when the root pith violates the root hint, optionally forwarding the
pseudo-random integer (`PEP_CODE_CHECK_HINT_ROOT_SUFFIX_RANDOM_INT`). -/
def rootSufChars (withRandomInt : Bool) : Chars :=
  strChars ":\n            __beartype_raise_pep_call_exception(\n                func=__beartype_func,\n                pith_name=" ++
  strChars "?|PITH_ROOT_NAME`^" ++
  strChars ",\n                pith_value=" ++ pithRootChars ++
  (if withRandomInt then
    strChars ",\n                random_int=__beartype_random_int"
  else []) ++
  strChars ",\n            )\n"

-- ....................  code generator  ....................

/-- The code and queue records generated by the union branch's loop over
the PEP-compliant child hints (`for hint_child_index, hint_child in
enumerate(hint_childs_pep)`): each child contributes one disjunct
holding a freshly minted placeholder and is enqueued with the assigned
pith variable when a previous disjunct already performed the assignment
(one or more PEP-noncompliant children, or a child index above one)
and with the assignment expression otherwise. -/
def unionPepLoop (hasNonpep : Bool) (indParent indChild : Nat)
    (assignE assignedE : Chars) :
    Nat → Nat → List Hint → List Frag × List WorkItem
  | _, _, [] => ([], [])
  | idx, nid, h :: hs =>
    let first := idx = 0 && !hasNonpep
    let pithE := if hasNonpep = true ∨ 1 < idx then assignedE else assignE
    let rest := unionPepLoop hasNonpep indParent indChild assignE assignedE
      (idx + 1) (nid + 1) hs
    (Frag.text (unionChildSepChars first indParent) :: Frag.ph nid :: rest.1,
     ⟨h, nid, pithE, indChild⟩ :: rest.2)

/-- The code and queue records generated by the fixed-tuple branch's
loop over child hints (`for hint_child_index, hint_child in
enumerate(hint_childs)`): ignorable children are skipped without
minting a placeholder, unignorable children contribute one conjunct
holding a freshly minted placeholder and are enqueued with the pith
expression indexing the tuple at the child's positional index. -/
def tupleChildLoop (ind indChild : Nat) (assignedE : Chars) :
    Nat → Nat → List (Option Hint) → List Frag × List WorkItem
  | _, _, [] => ([], [])
  | idx, nid, none :: rest => tupleChildLoop ind indChild assignedE (idx + 1) nid rest
  | idx, nid, some h :: rest =>
    let r := tupleChildLoop ind indChild assignedE (idx + 1) (nid + 1) rest
    (Frag.text (tupleChildSepChars ind) :: Frag.ph nid :: r.1,
     ⟨h, nid, tuplePithChildChars assignedE idx, indChild⟩ :: r.2)

/-- The loop of the `Annotated`-metahint branch over the metadata
arguments: each beartype validator contributes one conjunct and its
locals are merged into the wrapper scope (`update_mapping`); the first
argument that is not a beartype validator raises
`BeartypeDecorHintPep593Exception`. -/
def pep593MetaLoop (ind : Nat) (assignedE : Chars) :
    List MetaArg → Except Err (List Frag × List ScopeVal)
  | [] => .ok ([], [])
  | .validator k :: rest =>
    match pep593MetaLoop ind assignedE rest with
    | .error e => .error e
    | .ok r => .ok (Frag.text (pep593ChildChars ind k assignedE) :: r.1,
                    ScopeVal.validatorLocal k :: r.2)
  | .other k :: _ => .error (.pep593Mixed k)

/-- The CLEANUP step of one loop iteration: inject the generated snippet
into the code buffer at the visited hint's placeholder
(`replace_str_substrs`) and assemble the successor state. -/
def finishVisit (it : WorkItem) (st : BfsSt) (snip : List Frag)
    (new : List WorkItem) (scope : List ScopeVal)
    (fwd : Option (List Chars)) (rand : Bool) (nph pc : Nat) :
    Except Err (BfsSt × List WorkItem) :=
  match replace_str_substrs st.code it.ph snip with
  | .error e => .error e
  | .ok code₁ => .ok (⟨code₁, scope, fwd, rand, nph, pc, st.substs + 1⟩, new)

/-- One iteration of the breadth-first search of `pep_code_check_hint`:
reduce the visited hint, dispatch on its sign, synthesize its snippet
(minting placeholders and enqueueing unignorable child hints), and
substitute the snippet into the code buffer.  Raises on unsupported
signs, nested `typing.NoReturn`, non-PEP non-class hints, unsubscripted
unions and mixed `Annotated` metadata. -/
def visit (it : WorkItem) (st : BfsSt) : Except Err (BfsSt × List WorkItem) :=
  match reduceHint it.hint with
  | .notPep tag => .error (.notPepHint tag)
  | .unsupported tag => .error (.unsupportedSign tag)
  | .noReturn => .error .pep484NoReturn
  | .cls t =>
      finishVisit it st [Frag.text (isinstanceChars it.pith (typeExprChars t))]
        [] (pySetInsert st.scope (.typ t)) st.fwdrefs st.randNeeded st.nextPh
        st.pithCtr
  | .stdOrigin t =>
      let pa := pithAssignCalc st.pithCtr it.pith
      finishVisit it st [Frag.text (isinstanceChars it.pith (typeExprChars t))]
        [] (pySetInsert st.scope (.typ t)) st.fwdrefs st.randNeeded st.nextPh
        pa.1
  | .union np pep =>
      if np.isEmpty && pep.isEmpty then .error .unionUnsubscripted
      else
        let pa := pithAssignCalc st.pithCtr it.pith
        let npFrags : List Frag :=
          if np.isEmpty then []
          else [Frag.text (unionNonpepChars it.indent
            (if pep.isEmpty then it.pith else pa.2.1) (typesExprChars np))]
        let pl := unionPepLoop (!np.isEmpty) it.indent (it.indent + 1) pa.2.1
          pa.2.2 0 st.nextPh pep
        let snip := Frag.text unionPreChars :: npFrags ++ pl.1 ++
          [Frag.text (unionSufChars it.indent)]
        let sc := if np.isEmpty then st.scope
          else pySetInsert st.scope (.typs np)
        finishVisit it st snip pl.2 sc st.fwdrefs st.randNeeded
          (st.nextPh + pep.length) pa.1
  | .seqStd origin child =>
      let pa := pithAssignCalc st.pithCtr it.pith
      let sc := pySetInsert st.scope (.typ origin)
      match child with
      | some c =>
          finishVisit it st
            [Frag.text (seqCheckPreChars it.indent pa.2.1 pa.2.2
               (typeExprChars origin)),
             Frag.ph st.nextPh, Frag.text (seqCheckSufChars it.indent)]
            [⟨c, st.nextPh, seqPithChildChars pa.2.2, it.indent + 1⟩]
            sc st.fwdrefs true (st.nextPh + 1) pa.1
      | none =>
          finishVisit it st
            [Frag.text (isinstanceChars it.pith (typeExprChars origin))] []
            sc st.fwdrefs st.randNeeded st.nextPh pa.1
  | .tupleFixed emptyForm args =>
      let pa := pithAssignCalc st.pithCtr it.pith
      if emptyForm then
        finishVisit it st
          [Frag.text (tupleFixedPreChars it.indent pa.2.1),
           Frag.text (tupleEmptyChars it.indent pa.2.2),
           Frag.text (tupleFixedSufChars it.indent)]
          [] st.scope st.fwdrefs st.randNeeded st.nextPh pa.1
      else
        let tl := tupleChildLoop it.indent (it.indent + 1) pa.2.2 0 st.nextPh
          args
        finishVisit it st
          (Frag.text (tupleFixedPreChars it.indent pa.2.1) ::
           Frag.text (tupleLenChars it.indent pa.2.2 args.length) ::
           tl.1 ++ [Frag.text (tupleFixedSufChars it.indent)])
          tl.2 st.scope st.fwdrefs st.randNeeded
          (st.nextPh + (args.filterMap id).length) pa.1
  | .forwardref n =>
      let pa := pithAssignCalc st.pithCtr it.pith
      if '.' ∈ n then
        finishVisit it st
          [Frag.text (isinstanceChars it.pith (typistryExprChars n))] []
          (pySetInsert st.scope .typistry) st.fwdrefs st.randNeeded st.nextPh
          pa.1
      else
        finishVisit it st
          [Frag.text (strChars "isinstance(" ++ it.pith ++ strChars ", "),
           Frag.fwdref n, Frag.text (strChars ")")] []
          st.scope
          (some (match st.fwdrefs with
            | none => [n]
            | some l => pySetInsert l n))
          st.randNeeded st.nextPh pa.1
  | .annotated b meta =>
      let pa := pithAssignCalc st.pithCtr it.pith
      match pep593MetaLoop it.indent pa.2.2 meta with
      | .error e => .error e
      | .ok r =>
          finishVisit it st
            (Frag.text (pep593PreChars it.indent) :: Frag.ph st.nextPh ::
             r.1 ++ [Frag.text (pep593SufChars it.indent)])
            [⟨b, st.nextPh, pa.2.1, it.indent + 1⟩]
            (r.2.foldl pySetInsert st.scope) st.fwdrefs st.randNeeded
            (st.nextPh + 1) pa.1

/-- The breadth-first search loop (`while hints_meta_index_curr <=
hints_meta_index_last`), with the `hints_meta` fixed list modelled as a
functional first-in-first-out queue and the loop bounded by structural
fuel.  Alongside the final state it returns the trace of (reduced)
hints visited, in visit order. -/
def bfsT : Nat → List WorkItem → BfsSt → List Hint →
    Except Err BfsSt × List Hint
  | _, [], st, acc => (.ok st, acc)
  | 0, _ :: _, _, acc => (.error .outOfFuel, acc)
  | fuel + 1, it :: rest, st, acc =>
    match visit it st with
    | .error e => (.error e, acc ++ [reduceHint it.hint])
    | .ok r => bfsT fuel (rest ++ r.2) r.1 (acc ++ [reduceHint it.hint])

/-- The initial code buffer `func_root_code`:
`PEP_CODE_CHECK_HINT_ROOT_PREFIX` followed by the placeholder minted by
the initial `_enqueue_hint_child(pith_root_expr)` call. -/
def funcRootCode : List Frag := [Frag.text rootPreChars, Frag.ph 0]

/-- The compilation state after the initial enqueue of the root hint:
the seeded code buffer, empty scope, no forward references, no random
integer, placeholder 0 minted, counters zero. -/
def initBfsSt : BfsSt := ⟨funcRootCode, [], none, false, 1, 0, 0⟩

/-- The queue record created for the root hint by the initial
`_enqueue_hint_child(pith_root_expr)` call (root pith, root
indentation `CODE_INDENT_2`). -/
def initWorkItem (h : Hint) : WorkItem := ⟨h, 0, pithRootChars, 2⟩

/-- Run the breadth-first search on a root hint. -/
def bfsRun (h : Hint) : Except Err BfsSt × List Hint :=
  bfsT (hintSize h) [initWorkItem h] initBfsSt []

/-- The trace of (reduced) hints visited by the breadth-first search on
a root hint, in visit order; its head is the reduced root hint. -/
def pepTrace (h : Hint) : List Hint := (bfsRun h).2

/-- The post-loop validation and assembly of `pep_code_check_hint`
(lines 2027-2079): if the code buffer still equals its initial
pre-substitution form `func_root_code`, raise
`BeartypeDecorHintPepException` instead of returning a no-op check;
otherwise bind `random.getrandbits` when a pseudo-random integer is
needed, append the root suffix snippet, and return the 3-tuple with the
forward-reference name set coerced to a tuple (empty when the set was
never created). -/
def finalizeChecked (funcWrapperCode : List Frag) (scope : List ScopeVal)
    (fwd : Option (List Chars)) (rand : Bool) : Except Err CheckOut :=
  if funcWrapperCode = funcRootCode then .error .rootNotChecked
  else
    .ok ⟨funcWrapperCode ++ [Frag.text (rootSufChars rand)],
         (if rand then pySetInsert scope .getrandbits else scope),
         match fwd with | none => [] | some l => l⟩

/-- The memoized code generator `pep_code_check_hint`: run the
breadth-first search from the root hint and validate and assemble the
result.  Exceptions abort the whole compilation; no partial code,
scope or forward-reference artifact is ever returned. -/
def pep_code_check_hint (h : Hint) : Except Err CheckOut :=
  match (bfsRun h).1 with
  | .error e => .error e
  | .ok st => finalizeChecked st.code st.scope st.fwdrefs st.randNeeded

-- ....................  the enqueue closure  ....................

/-- The state over which the `_enqueue_hint_child` closure closes: the
number of placeholders minted so far (the source's
`hint_child_placeholder_id`, initialized to `-1` and pre-incremented,
stores this number minus one) and the `hints_meta` queue. -/
structure EnqueueSt : Type where
  placeholderCount : Nat
  hints_meta : List WorkItem

/-- The `_enqueue_hint_child` closure: increment the placeholder
counter, mint the placeholder text for the new identifier, append the
metadata record of the child hint to the queue, and return the
placeholder for embedding in the parent's snippet. -/
def enqueue_hint_child (hint_child : Hint) (pith_child_expr : Chars)
    (indent_child : Nat) (st : EnqueueSt) : Chars × EnqueueSt :=
  (phText st.placeholderCount,
   ⟨st.placeholderCount + 1,
    st.hints_meta ++
      [⟨hint_child, st.placeholderCount, pith_child_expr, indent_child⟩]⟩)

-- ..............  runtime semantics of generated snippets  ..............

/-- The boolean computed at wrapper run time by the
`PEP_CODE_CHECK_HINT_SEQUENCE_STANDARD` snippet (instantiated by the
standard-sequence/variadic-tuple branch when the child hint is
unignorable):

`isinstance(pith, origin) and (not pith or CHILD)`

where `CHILD` checks `pith[__beartype_random_int % len(pith)]`
(`PEP_CODE_CHECK_HINT_SEQUENCE_STANDARD_PITH_CHILD_EXPR`).  `isInst` is
the verdict of the isinstance test against the hint's origin container
type, `elems` the items of the pith, `child` the boolean value of the
child hint's check on an item, `r` the pseudo-random integer
`__beartype_random_int`.  Python's `or` short-circuits, so on an empty
pith the indexing inside `CHILD` is never evaluated; the unreachable
out-of-range lookup is mapped to `false`. -/
def sequence_standard_check {α : Type} (isInst : Bool) (elems : List α)
    (child : α → Bool) (r : Nat) : Bool :=
  isInst && (elems.isEmpty ||
    (match elems.get? (r % elems.length) with
     | some x => child x
     | none => false))

/-- The conjunction of per-position child checks emitted by the
fixed-tuple branch's loop over `enumerate(hint_childs)`: an ignorable
child (`none`) contributes no conjunct, an unignorable child checks
`pith[idx]` (`PEP_CODE_CHECK_HINT_TUPLE_FIXED_NONEMPTY_PITH_CHILD_EXPR`). -/
def tuple_fixed_childs_check {α : Type} (elems : List α) :
    Nat → List (Option (α → Bool)) → Bool
  | _, [] => true
  | idx, none :: rest => tuple_fixed_childs_check elems (idx + 1) rest
  | idx, some c :: rest =>
      (match elems.get? idx with | some x => c x | none => false) &&
      tuple_fixed_childs_check elems (idx + 1) rest

/-- The boolean computed at wrapper run time by the fixed-tuple snippet
(`PEP_CODE_CHECK_HINT_TUPLE_FIXED_*`):

`isinstance(pith, tuple) and len(pith) == N and CHILD_0 and ... and CHILD_k`

for the general form, and `isinstance(pith, tuple) and not pith` for the
empty form `Tuple[()]` (the `is_hint_pep_tuple_empty` branch).
`isTuple` is the verdict of the isinstance test, `childs` the child
hints' checks in positional order (`none` for an ignorable child),
`elems` the items of the pith. -/
def tuple_fixed_check {α : Type} (isTuple : Bool) (emptyForm : Bool)
    (childs : List (Option (α → Bool))) (elems : List α) : Bool :=
  isTuple &&
  (if emptyForm then elems.isEmpty
   else (elems.length == childs.length) &&
     tuple_fixed_childs_check elems 0 childs)

/-- The boolean computed at wrapper run time by the union snippet
(`PEP484_CODE_CHECK_HINT_UNION_*`): one combined
`isinstance(pith, tuple_of_plain_types)` disjunct, emitted only when the
set of PEP-noncompliant children is non-empty, or'd with one
recursively synthesized disjunct per PEP-compliant child.  `instOf`
interprets the isinstance test against one plain type, `pepChecks` are
the boolean values of the PEP-compliant children's checks. -/
def union_check {α : Type} (instOf : Nat → α → Bool) (nonpep : List Nat)
    (pepChecks : List (α → Bool)) (v : α) : Bool :=
  (if nonpep.isEmpty then false else nonpep.any fun t => instOf t v) ||
  pepChecks.any fun c => c v

/-- The union branch's prefiltering loop (`for hint_child in
hint_childs` with `hint_childs_nonpep.add` / `hint_childs_pep.add`):
children are partitioned into the set of PEP-noncompliant plain types
(`Sum.inl`, identified by the type's identity) and the set of
PEP-compliant child hints (`Sum.inr`, identified by the hint's
identity), with Python-set insertion semantics. -/
def partition_union_loop :
    List (Nat ⊕ Nat) → List Nat × List Nat → List Nat × List Nat
  | [], acc => acc
  | .inl t :: rest, acc =>
      partition_union_loop rest (pySetInsert acc.1 t, acc.2)
  | .inr h :: rest, acc =>
      partition_union_loop rest (acc.1, pySetInsert acc.2 h)

/-- The union branch's prefiltering loop started on the empty pair of
sets. -/
def partition_union_children (cs : List (Nat ⊕ Nat)) : List Nat × List Nat :=
  partition_union_loop cs ([], [])

/-- Whether one union alternative accepts a runtime value: a plain type
by its isinstance test, a PEP-compliant child hint by its check. -/
def unionArgAccepts {α : Type} (instOf : Nat → α → Bool)
    (childCheck : Nat → α → Bool) (v : α) : Nat ⊕ Nat → Bool
  | .inl t => instOf t v
  | .inr h => childCheck h v

-- ....................  invariant statement  ....................

/-- Membership in the (lazily created) set of unqualified
forward-reference classnames of a compilation state. -/
def fwdMem (st : BfsSt) (n : Chars) : Prop :=
  match st.fwdrefs with
  | none => False
  | some l => n ∈ l

/-- The loop invariant of the breadth-first search, relating the pending
queue to the compilation state: every pending placeholder occurs exactly
once in the code buffer and no other placeholder occurs at all; pending
placeholders are distinct and below the minting counter; the number of
substitutions performed plus the number of pending items equals the
number of placeholders minted; all buffer fragments are free of the
placeholder-opening character; and pending pith expressions and hints
are well formed. -/
structure Inv (q : List WorkItem) (st : BfsSt) : Prop where
  countEq : ∀ id, countPh st.code id =
    if id ∈ q.map WorkItem.ph then 1 else 0
  nodup : (q.map WorkItem.ph).Nodup
  phLt : ∀ it ∈ q, it.ph < st.nextPh
  substEq : st.substs + q.length = st.nextPh
  codeAtFree : ∀ f ∈ st.code, fragAtFree f = true
  pithAtFree : ∀ it ∈ q, '@' ∉ it.pith
  hintsWf : ∀ it ∈ q, hintWf it.hint = true

-- ....................  lemmas  ....................

theorem decCharsAux_eq_digits :
    ∀ (fuel n : Nat), 0 < n → n ≤ fuel →
      decCharsAux fuel n = ((Nat.digits 10 n).map Nat.digitChar).reverse := by
  intro fuel
  induction fuel with
  | zero => intro n h1 h2; omega
  | succ f ih =>
    intro n h1 h2
    obtain ⟨m, rfl⟩ : ∃ m, n = m + 1 := ⟨n - 1, by omega⟩
    rw [show decCharsAux (f + 1) (m + 1) =
        decCharsAux f ((m + 1) / 10) ++ [Nat.digitChar ((m + 1) % 10)]
        from rfl]
    rw [Nat.digits_def' (by norm_num : (1 : Nat) < 10) h1]
    simp only [List.map_cons, List.reverse_cons]
    by_cases hq : (m + 1) / 10 = 0
    · rw [hq]
      cases f <;> simp [decCharsAux]
    · rw [ih ((m + 1) / 10) (by omega) (by omega)]

theorem decChars_eq_digits (n : Nat) :
    decChars n =
      if n = 0 then ['0']
      else ((Nat.digits 10 n).map Nat.digitChar).reverse := by
  unfold decChars
  by_cases h : n = 0
  · simp [h]
  · rw [if_neg h, if_neg h, decCharsAux_eq_digits n n (by omega) le_rfl]


theorem digitChar_isDigit : ∀ d < 10, (Nat.digitChar d).isDigit = true := by
  decide

theorem digitChar_inj10 :
    ∀ a < 10, ∀ b < 10, Nat.digitChar a = Nat.digitChar b → a = b := by
  decide

theorem decChars_isDigit (n : Nat) : ∀ c ∈ decChars n, c.isDigit = true := by
  intro c hc
  rw [decChars_eq_digits] at hc
  by_cases h : n = 0
  · simp [h] at hc
    simp [hc]
  · simp [h, List.mem_reverse, List.mem_map] at hc
    obtain ⟨d, hd, rfl⟩ := hc
    exact digitChar_isDigit d (Nat.digits_lt_base (by norm_num) hd)

theorem map_digitChar_inj :
    ∀ (l₁ l₂ : List Nat), (∀ d ∈ l₁, d < 10) → (∀ d ∈ l₂, d < 10) →
      l₁.map Nat.digitChar = l₂.map Nat.digitChar → l₁ = l₂ := by
  intro l₁
  induction l₁ with
  | nil => intro l₂ _ _ h; cases l₂ <;> simp_all
  | cons a t ih =>
    intro l₂ h₁ h₂ h
    cases l₂ with
    | nil => simp at h
    | cons b t₂ =>
      simp only [List.map_cons, List.cons.injEq] at h
      have ha : a = b :=
        digitChar_inj10 a (h₁ a (by simp)) b (h₂ b (by simp)) h.1
      have ht : t = t₂ :=
        ih t₂ (fun d hd => h₁ d (by simp [hd]))
          (fun d hd => h₂ d (by simp [hd])) h.2
      simp [ha, ht]

theorem decChars_inj {m n : Nat} (h : decChars m = decChars n) : m = n := by
  rw [decChars_eq_digits, decChars_eq_digits] at h
  by_cases hm : m = 0 <;> by_cases hn : n = 0
  · simp [hm, hn]
  · exfalso
    simp only [hm, if_pos rfl, if_neg hn] at h
    have h' : (Nat.digits 10 n).map Nat.digitChar = ['0'] := by
      have := congrArg List.reverse h
      simpa using this.symm
    have hdig : Nat.digits 10 n = [0] := by
      apply map_digitChar_inj _ _
        (fun d hd => Nat.digits_lt_base (by norm_num) hd)
        (fun d hd => by simp at hd; omega)
      simpa using h'
    have := Nat.ofDigits_digits 10 n
    rw [hdig] at this
    simp [Nat.ofDigits] at this
    exact hn this.symm
  · exfalso
    simp only [hn, if_neg hm, if_pos rfl] at h
    have h' : (Nat.digits 10 m).map Nat.digitChar = ['0'] := by
      have := congrArg List.reverse h
      simpa using this
    have hdig : Nat.digits 10 m = [0] := by
      apply map_digitChar_inj _ _
        (fun d hd => Nat.digits_lt_base (by norm_num) hd)
        (fun d hd => by simp at hd; omega)
      simpa using h'
    have := Nat.ofDigits_digits 10 m
    rw [hdig] at this
    simp [Nat.ofDigits] at this
    exact hm this.symm
  · simp only [if_neg hm, if_neg hn] at h
    have h' : (Nat.digits 10 m).map Nat.digitChar =
        (Nat.digits 10 n).map Nat.digitChar := by
      have := congrArg List.reverse h
      simpa using this
    have hdig : Nat.digits 10 m = Nat.digits 10 n :=
      map_digitChar_inj _ _
        (fun d hd => Nat.digits_lt_base (by norm_num) hd)
        (fun d hd => Nat.digits_lt_base (by norm_num) hd) h'
    have h₁ := Nat.ofDigits_digits 10 m
    have h₂ := Nat.ofDigits_digits 10 n
    rw [hdig] at h₁
    omega

/-- Splitting lemma: two digit strings followed by the placeholder
closing delimiter can only align when the digit strings agree (the
closing parenthesis is not a digit, so it acts as a hard delimiter). -/
theorem digits_close_eq :
    ∀ (a b t : Chars), (∀ c ∈ a, c.isDigit = true) →
      (∀ c ∈ b, c.isDigit = true) →
      a ++ ')' :: '!' :: t = b ++ [')', '!'] → a = b ∧ t = [] := by
  intro a
  induction a with
  | nil =>
    intro b t _ hb h
    cases b with
    | nil => simp at h; simp [h]
    | cons c b' =>
      exfalso
      simp only [List.nil_append, List.cons_append, List.cons.injEq] at h
      have := hb c (by simp)
      rw [← h.1] at this
      simp [Char.isDigit] at this
  | cons c a' ih =>
    intro b t ha hb h
    cases b with
    | nil =>
      exfalso
      simp only [List.cons_append, List.nil_append, List.cons.injEq] at h
      have := ha c (by simp)
      rw [h.1] at this
      simp [Char.isDigit] at this
    | cons c' b' =>
      simp only [List.cons_append, List.cons.injEq] at h
      have := ih b' t (fun d hd => ha d (by simp [hd]))
        (fun d hd => hb d (by simp [hd])) h.2
      exact ⟨by simp [h.1, this.1], this.2⟩

theorem at_not_mem_phTail (j : Nat) :
    '@' ∉ '[' :: decChars j ++ [')', '!'] := by
  intro h
  simp only [List.cons_append, List.mem_cons, List.mem_append,
    List.mem_singleton] at h
  rcases h with h | h | h | h
  · exact absurd h (by decide)
  · have := decChars_isDigit j _ h
    simp [Char.isDigit] at this
  · exact absurd h (by decide)
  · exact absurd h (by decide)

/-- Core collision-freedom property of the child-hint placeholders: the
placeholder text of one identifier is a contiguous substring of the
placeholder text of another identifier only when the identifiers agree.
In particular the placeholder of index 1 never matches inside the
placeholder of index 10. -/
theorem phText_infix_eq {i j : Nat} (h : List.IsInfix (phText i) (phText j)) :
    i = j := by
  obtain ⟨s, t, hst⟩ := h
  cases s with
  | cons c s' =>
    exfalso
    unfold phText phOpenChars phCloseChars at hst
    simp only [List.cons_append, List.cons.injEq] at hst
    apply at_not_mem_phTail j
    have hmem : '@' ∈ s' ++ '@' :: '[' :: ([] ++ decChars i ++ [')', '!']) ++ t := by
      simp
    rw [hst.2] at hmem
    simpa using hmem
  | nil =>
    unfold phText phOpenChars phCloseChars at hst
    simp only [List.nil_append, List.cons_append, List.append_assoc,
      List.cons.injEq] at hst
    have h' : decChars i ++ ')' :: '!' :: t = decChars j ++ [')', '!'] := by
      have := hst
      simpa using this
    have := digits_close_eq (decChars i) (decChars j) t
      (decChars_isDigit i) (decChars_isDigit j) h'
    exact decChars_inj this.1

theorem countPh_append (a b : List Frag) (id : Nat) :
    countPh (a ++ b) id = countPh a id + countPh b id := by
  induction a with
  | nil => simp [countPh]
  | cons f t ih =>
    cases f <;> simp [countPh, ih] <;> ring

theorem countFwd_append (a b : List Frag) (n : Chars) :
    countFwd (a ++ b) n = countFwd a n + countFwd b n := by
  induction a with
  | nil => simp [countFwd]
  | cons f t ih =>
    cases f <;> simp [countFwd, ih] <;> ring

theorem countPh_substPh (l : List Frag) (id : Nat) (snip : List Frag)
    (j : Nat) :
    countPh (substPh l id snip) j =
      (if j = id then 0 else countPh l j) + countPh l id * countPh snip j := by
  induction l with
  | nil => simp [substPh, countPh]
  | cons f t ih =>
    cases f with
    | text s =>
      rw [show substPh (Frag.text s :: t) id snip =
          Frag.text s :: substPh t id snip from rfl]
      simp only [countPh, ih]
    | fwdref m =>
      rw [show substPh (Frag.fwdref m :: t) id snip =
          Frag.fwdref m :: substPh t id snip from rfl]
      simp only [countPh, ih]
    | ph i =>
      rw [show substPh (Frag.ph i :: t) id snip =
          (if i = id then snip else [Frag.ph i]) ++ substPh t id snip from rfl]
      rw [countPh_append, ih]
      by_cases hi : i = id
      · subst hi
        simp only [if_pos rfl, countPh]
        by_cases hj : j = i
        · subst hj
          simp
          ring
        · have : ¬ i = j := fun h => hj h.symm
          simp [hj, this]
          ring
      · have h1 : countPh [Frag.ph i] j = if i = j then 1 else 0 := by
          simp [countPh]
        have h2 : countPh (Frag.ph i :: t) j =
            (if i = j then 1 else 0) + countPh t j := rfl
        have h3 : countPh (Frag.ph i :: t) id =
            (if i = id then 1 else 0) + countPh t id := rfl
        rw [if_neg hi, h1, h2, h3, if_neg hi]
        by_cases hj : j = id
        · subst hj
          have : ¬ i = j := hi
          simp [this]
        · simp [hj]
          ring

theorem countFwd_substPh (l : List Frag) (id : Nat) (snip : List Frag)
    (n : Chars) :
    countFwd (substPh l id snip) n =
      countFwd l n + countPh l id * countFwd snip n := by
  induction l with
  | nil => simp [substPh, countFwd, countPh]
  | cons f t ih =>
    cases f with
    | text s =>
      rw [show substPh (Frag.text s :: t) id snip =
          Frag.text s :: substPh t id snip from rfl]
      simp only [countFwd, countPh, ih]
    | fwdref m =>
      rw [show substPh (Frag.fwdref m :: t) id snip =
          Frag.fwdref m :: substPh t id snip from rfl]
      have h2 : countFwd (Frag.fwdref m :: t) n =
          (if m = n then 1 else 0) + countFwd t n := rfl
      have h3 : countPh (Frag.fwdref m :: t) id = countPh t id := rfl
      rw [show countFwd (Frag.fwdref m :: substPh t id snip) n =
          (if m = n then 1 else 0) + countFwd (substPh t id snip) n from rfl]
      rw [ih, h2, h3]
      ring
    | ph i =>
      rw [show substPh (Frag.ph i :: t) id snip =
          (if i = id then snip else [Frag.ph i]) ++ substPh t id snip from rfl]
      rw [countFwd_append, ih]
      have h2 : countFwd (Frag.ph i :: t) n = countFwd t n := rfl
      have h3 : countPh (Frag.ph i :: t) id =
          (if i = id then 1 else 0) + countPh t id := rfl
      rw [h2, h3]
      by_cases hi : i = id
      · simp [hi]
        ring
      · have : countFwd [Frag.ph i] n = 0 := rfl
        simp [hi, this]

theorem substPh_atFree (l : List Frag) (id : Nat) (snip : List Frag)
    (hl : ∀ f ∈ l, fragAtFree f = true)
    (hs : ∀ f ∈ snip, fragAtFree f = true) :
    ∀ f ∈ substPh l id snip, fragAtFree f = true := by
  induction l with
  | nil => simp [substPh]
  | cons g t ih =>
    have ht : ∀ f ∈ substPh t id snip, fragAtFree f = true :=
      ih (fun f hf => hl f (by simp [hf]))
    intro f hf
    cases g with
    | text s =>
      rw [show substPh (Frag.text s :: t) id snip =
          Frag.text s :: substPh t id snip from rfl] at hf
      rcases List.mem_cons.mp hf with h | h
      · subst h; exact hl _ (by simp)
      · exact ht _ h
    | fwdref m =>
      rw [show substPh (Frag.fwdref m :: t) id snip =
          Frag.fwdref m :: substPh t id snip from rfl] at hf
      rcases List.mem_cons.mp hf with h | h
      · subst h; exact hl _ (by simp)
      · exact ht _ h
    | ph i =>
      rw [show substPh (Frag.ph i :: t) id snip =
          (if i = id then snip else [Frag.ph i]) ++ substPh t id snip
          from rfl] at hf
      rcases List.mem_append.mp hf with h | h
      · by_cases hi : i = id
        · rw [if_pos hi] at h; exact hs _ h
        · rw [if_neg hi] at h
          simp at h
          subst h
          rfl
      · exact ht _ h

theorem mem_pySetInsert {γ : Type} [DecidableEq γ] (s : List γ) (x y : γ) :
    y ∈ pySetInsert s x ↔ y ∈ s ∨ y = x := by
  unfold pySetInsert
  by_cases h : x ∈ s
  · simp only [if_pos h]
    constructor
    · exact fun hy => Or.inl hy
    · rintro (hy | rfl)
      · exact hy
      · exact h
  · simp [if_neg h]

-- ....................  easy branch lemmas  ....................

theorem visit_noReturn (it : WorkItem) (st : BfsSt)
    (hred : reduceHint it.hint = Hint.noReturn) :
    visit it st = .error .pep484NoReturn := by
  unfold visit
  rw [hred]

theorem bfsT_noReturn_mem (fuel : Nat) :
    ∀ (q : List WorkItem) (st : BfsSt) (acc : List Hint),
      Hint.noReturn ∈ (bfsT fuel q st acc).2 →
      Hint.noReturn ∈ acc ∨
        (bfsT fuel q st acc).1 = .error .pep484NoReturn := by
  induction fuel with
  | zero =>
    intro q st acc hmem
    cases q with
    | nil => exact Or.inl (by simpa [bfsT] using hmem)
    | cons it rest => exact Or.inl (by simpa [bfsT] using hmem)
  | succ f ih =>
    intro q st acc hmem
    cases q with
    | nil => exact Or.inl (by simpa [bfsT] using hmem)
    | cons it rest =>
      rw [show bfsT (f + 1) (it :: rest) st acc =
          (match visit it st with
           | .error e => (.error e, acc ++ [reduceHint it.hint])
           | .ok r => bfsT f (rest ++ r.2) r.1 (acc ++ [reduceHint it.hint]))
          from rfl] at hmem ⊢
      cases hv : visit it st with
      | error e =>
        rw [hv] at hmem
        replace hmem : Hint.noReturn ∈ acc ++ [reduceHint it.hint] := hmem
        show Hint.noReturn ∈ acc ∨
          Except.error e = Except.error Err.pep484NoReturn
        rcases List.mem_append.mp hmem with hm | hm
        · exact Or.inl hm
        · right
          have hm2 : Hint.noReturn = reduceHint it.hint := by simpa using hm
          have hv2 := visit_noReturn it st hm2.symm
          rw [hv] at hv2
          injection hv2 with he
          rw [he]
      | ok r =>
        rw [hv] at hmem
        replace hmem : Hint.noReturn ∈
            (bfsT f (rest ++ r.2) r.1 (acc ++ [reduceHint it.hint])).2 := hmem
        show Hint.noReturn ∈ acc ∨
          (bfsT f (rest ++ r.2) r.1 (acc ++ [reduceHint it.hint])).1 =
            Except.error Err.pep484NoReturn
        have hred : reduceHint it.hint ≠ Hint.noReturn := by
          intro hr
          have := visit_noReturn it st hr
          rw [hv] at this
          cases this
        rcases ih (rest ++ r.2) r.1 (acc ++ [reduceHint it.hint]) hmem with
          hm | hm
        · rcases List.mem_append.mp hm with h1 | h1
          · exact Or.inl h1
          · have h12 : Hint.noReturn = reduceHint it.hint := by simpa using h1
            exact absurd h12.symm hred
        · exact Or.inr hm

-- ....................  claim theorems (part 1)  ....................

/-- Claim C4: presenting a hint whose sign the synthesizer does not
recognize as supported makes `pep_code_check_hint` raise
(`BeartypeDecorHintPepUnsupportedException` via
`die_if_hint_pep_sign_unsupported` for PEP-compliant hints of an
unrecognized sign, `BeartypeDecorHintPepException` for objects that are
neither PEP-compliant nor classes) before returning; since the result
is the error alone, no partial code, scope or forward-reference
artifact is ever observable by the caller. -/
theorem claim4_unsupported_raises (tag : Nat) :
    pep_code_check_hint (Hint.unsupported tag) =
      .error (.unsupportedSign tag) ∧
    pep_code_check_hint (Hint.notPep tag) = .error (.notPepHint tag) :=
  ⟨rfl, rfl⟩

/-- Claim C6: every call to the enqueue operation `_enqueue_hint_child`
strictly increments the monotonic child-index counter by one, mints the
placeholder of the new index delimited by the character sequences
`@[`/`)!` (invalid as Python code), and appends exactly one new queue
record bearing that index; and placeholders of distinct indices are
never substrings of one another (e.g. the placeholder of index 1 never
matches inside the placeholder of index 10). -/
theorem claim6_enqueue_placeholder :
    (∀ (h : Hint) (p : Chars) (ind : Nat) (st : EnqueueSt),
      (enqueue_hint_child h p ind st).2.placeholderCount =
        st.placeholderCount + 1 ∧
      (enqueue_hint_child h p ind st).1 = phText st.placeholderCount ∧
      (enqueue_hint_child h p ind st).2.hints_meta =
        st.hints_meta ++ [⟨h, st.placeholderCount, p, ind⟩]) ∧
    (∀ i j : Nat, i ≠ j → ¬ List.IsInfix (phText i) (phText j)) := by
  constructor
  · intro h p ind st
    exact ⟨rfl, rfl, rfl⟩
  · intro i j hne hinf
    exact hne (phText_infix_eq hinf)

/-- Witness for claim C6 at the specification's own example: the
placeholder of index 1 is not a substring of the placeholder of
index 10. -/
theorem claim6_witness : ¬ List.IsInfix (phText 1) (phText 10) :=
  claim6_enqueue_placeholder.2 1 10 (by decide)

/-- Claim C7: if after the breadth-first search the code buffer still
equals its initial pre-substitution form `func_root_code` (the root
template with the root placeholder unexpanded), the post-loop
validation of `pep_code_check_hint` raises
`BeartypeDecorHintPepException` instead of returning a no-op check. -/
theorem claim7_root_unexpanded_raises (scope : List ScopeVal)
    (fwd : Option (List Chars)) (rand : Bool) :
    finalizeChecked funcRootCode scope fwd rand = .error .rootNotChecked := by
  simp [finalizeChecked]

/-- Claim C10: whenever the breadth-first search visits
`typing.NoReturn` as a nested hint (any element of the visit trace
after the root), `pep_code_check_hint` raises
`BeartypeDecorHintPep484Exception` instead of emitting code, since
`NoReturn` is valid only as a non-nested return annotation handled by
the caller. -/
theorem claim10_nested_noreturn (h : Hint)
    (hmem : Hint.noReturn ∈ (pepTrace h).drop 1) :
    pep_code_check_hint h = .error .pep484NoReturn := by
  have h1 : Hint.noReturn ∈ pepTrace h := by
    have hsub : (pepTrace h).drop 1 ⊆ pepTrace h := List.drop_subset 1 _
    exact hsub hmem
  unfold pepTrace bfsRun at h1
  rcases bfsT_noReturn_mem (hintSize h) [initWorkItem h] initBfsSt [] h1 with
    h2 | h2
  · simp at h2
  · unfold pep_code_check_hint bfsRun
    rw [h2]

/-- Witness for claim C10: the hint `List[NoReturn]` (a standard
sequence whose child is `typing.NoReturn`) raises
`BeartypeDecorHintPep484Exception`. -/
theorem claim10_witness :
    pep_code_check_hint (Hint.seqStd 0 (some Hint.noReturn)) =
      .error .pep484NoReturn :=
  claim10_nested_noreturn _ (by
    rw [show pepTrace (Hint.seqStd 0 (some Hint.noReturn)) =
        [Hint.seqStd 0 (some Hint.noReturn), Hint.noReturn] from rfl]
    simp)

-- ....................  claim theorems (part 2)  ....................

/-- Claim C1: for every standard homogeneous sequence hint (and every
variadic tuple hint `Tuple[T, ...]`) with a non-ignorable child hint,
the boolean expression generated by `pep_code_check_hint` (the
`PEP_CODE_CHECK_HINT_SEQUENCE_STANDARD` snippet, whose run-time value
is `sequence_standard_check`) is true for a runtime value iff that
value is an instance of the hint's origin container type AND (the value
is empty OR the single element selected by the pseudo-random index
`__beartype_random_int % len(value)` satisfies the child hint's check);
and no other element is tested: the expression's value depends only on
the child check's verdict on that single selected element. -/
theorem claim1_sequence_standard_check {α : Type} (isInst : Bool)
    (elems : List α) (child : α → Bool) (r : Nat) :
    (sequence_standard_check isInst elems child r = true ↔
      (isInst = true ∧ (elems = [] ∨
        ∃ x, elems.get? (r % elems.length) = some x ∧ child x = true))) ∧
    (∀ child2 : α → Bool,
      (∀ x, elems.get? (r % elems.length) = some x → child2 x = child x) →
      sequence_standard_check isInst elems child2 r =
        sequence_standard_check isInst elems child r) := by
  constructor
  · cases elems with
    | nil => simp [sequence_standard_check]
    | cons a t =>
      have hlt : r % (a :: t).length < (a :: t).length :=
        Nat.mod_lt _ (by simp)
      obtain ⟨x, hx⟩ : ∃ x, (a :: t).get? (r % (a :: t).length) = some x := by
        rw [List.get?_eq_get hlt]
        exact ⟨_, rfl⟩
      unfold sequence_standard_check
      rw [hx]
      simp only [List.isEmpty_cons, Bool.false_or, Bool.and_eq_true]
      constructor
      · rintro ⟨hI, hc⟩
        exact ⟨hI, Or.inr ⟨x, rfl, hc⟩⟩
      · rintro ⟨hI, hor⟩
        refine ⟨hI, ?_⟩
        rcases hor with h | ⟨y, hy, hcy⟩
        · cases h
        · have hxy : x = y := by injection hy
          rw [hxy]
          exact hcy
  · intro child2 hagree
    cases elems with
    | nil => rfl
    | cons a t =>
      have hlt : r % (a :: t).length < (a :: t).length :=
        Nat.mod_lt _ (by simp)
      obtain ⟨x, hx⟩ : ∃ x, (a :: t).get? (r % (a :: t).length) = some x := by
        rw [List.get?_eq_get hlt]
        exact ⟨_, rfl⟩
      unfold sequence_standard_check
      rw [hx]
      show (isInst && ((a :: t).isEmpty || child2 x)) =
        (isInst && ((a :: t).isEmpty || child x))
      rw [hagree x hx]

/-- Witness for claim C1: a one-element sequence whose element matches
passes the generated check. -/
theorem claim1_witness :
    sequence_standard_check true ([3] : List Nat) (fun x => x == 3) 0 =
      true :=
  (claim1_sequence_standard_check true [3] (fun x => x == 3) 0).1.mpr
    ⟨rfl, Or.inr ⟨3, by decide, by decide⟩⟩

theorem tuple_fixed_childs_check_iff {α : Type} (elems : List α) :
    ∀ (childs : List (Option (α → Bool))) (k : Nat),
      tuple_fixed_childs_check elems k childs = true ↔
        ∀ i c, childs.get? i = some (some c) →
          (match elems.get? (k + i) with
           | some x => c x
           | none => false) = true := by
  intro childs
  induction childs with
  | nil =>
    intro k
    simp [tuple_fixed_childs_check]
  | cons hd rest ih =>
    intro k
    cases hd with
    | none =>
      rw [show tuple_fixed_childs_check elems k (none :: rest) =
          tuple_fixed_childs_check elems (k + 1) rest from rfl]
      rw [ih (k + 1)]
      constructor
      · intro h i c hget
        cases i with
        | zero => simp at hget
        | succ j =>
          have := h j c (by simpa using hget)
          rw [show k + (j + 1) = k + 1 + j by omega]
          exact this
      · intro h i c hget
        have := h (i + 1) c (by simpa using hget)
        rw [show k + 1 + i = k + (i + 1) by omega]
        exact this
    | some c0 =>
      rw [show tuple_fixed_childs_check elems k (some c0 :: rest) =
          ((match elems.get? k with | some x => c0 x | none => false) &&
           tuple_fixed_childs_check elems (k + 1) rest) from rfl]
      rw [Bool.and_eq_true, ih (k + 1)]
      constructor
      · rintro ⟨h0, h⟩ i c hget
        cases i with
        | zero =>
          simp only [List.get?] at hget
          injection hget with hget
          injection hget with hget
          rw [← hget, show k + 0 = k by omega]
          exact h0
        | succ j =>
          have := h j c (by simpa using hget)
          rw [show k + (j + 1) = k + 1 + j by omega]
          exact this
      · intro h
        constructor
        · have := h 0 c0 (by simp)
          rw [show k + 0 = k by omega] at this
          exact this
        · intro i c hget
          have := h (i + 1) c (by simpa using hget)
          rw [show k + 1 + i = k + (i + 1) by omega]
          exact this

/-- Claim C2: for every fixed-length tuple hint with `N` child hints,
the generated check (`PEP_CODE_CHECK_HINT_TUPLE_FIXED_*`, run-time
value `tuple_fixed_check`) is true for a runtime value iff the value is
a tuple AND its length equals the exact child count `N` AND each
positional element satisfies its corresponding positional child hint's
check (an ignorable child's check is vacuous; all children are checked,
no sampling); in particular a tuple of length different from `N` always
fails.  For the empty form `Tuple[()]` (the `is_hint_pep_tuple_empty`
branch, whose positional child count is zero) the check degenerates to
the tuple test plus emptiness, i.e. length equal to zero. -/
theorem claim2_tuple_fixed_check {α : Type} (isTuple : Bool)
    (childs : List (Option (α → Bool))) (elems : List α) :
    (tuple_fixed_check isTuple false childs elems = true ↔
      (isTuple = true ∧ elems.length = childs.length ∧
        ∀ i c x, childs.get? i = some (some c) → elems.get? i = some x →
          c x = true)) ∧
    (elems.length ≠ childs.length →
      tuple_fixed_check isTuple false childs elems = false) ∧
    (tuple_fixed_check isTuple true childs elems =
      (isTuple && elems.isEmpty)) := by
  refine ⟨?_, ?_, ?_⟩
  · unfold tuple_fixed_check
    simp only [Bool.false_eq_true, if_false, Bool.and_eq_true, beq_iff_eq]
    rw [tuple_fixed_childs_check_iff]
    constructor
    · rintro ⟨hI, hLen, hC⟩
      refine ⟨hI, hLen, ?_⟩
      intro i c x hci hxi
      have := hC i c hci
      rw [show 0 + i = i by omega, hxi] at this
      exact this
    · rintro ⟨hI, hLen, hC⟩
      refine ⟨hI, hLen, ?_⟩
      intro i c hci
      have hilt : i < childs.length := by
        by_contra hge
        rw [List.get?_eq_none.mpr (by omega)] at hci
        cases hci
      have hielt : i < elems.length := by omega
      obtain ⟨x, hx⟩ : ∃ x, elems.get? i = some x := by
        rw [List.get?_eq_get hielt]
        exact ⟨_, rfl⟩
      rw [show 0 + i = i by omega, hx]
      exact hC i c x hci hx
  · intro hne
    unfold tuple_fixed_check
    simp only [Bool.false_eq_true, if_false]
    have : (elems.length == childs.length) = false := by
      simpa using hne
    rw [this]
    simp
  · unfold tuple_fixed_check
    simp

/-- Witness for claim C2: a tuple of length 1 always fails the check of
a fixed-length tuple hint with two child hints. -/
theorem claim2_witness :
    tuple_fixed_check true false
      [some (fun x => x == 1), some (fun x => x == 2)] ([1] : List Nat) =
      false :=
  (claim2_tuple_fixed_check true
    [some (fun x => x == 1), some (fun x => x == 2)] [1]).2.1 (by decide)

theorem partition_union_loop_memL :
    ∀ (cs : List (Nat ⊕ Nat)) (acc : List Nat × List Nat) (t : Nat),
      t ∈ (partition_union_loop cs acc).1 ↔
        t ∈ acc.1 ∨ Sum.inl t ∈ cs := by
  intro cs
  induction cs with
  | nil => simp [partition_union_loop]
  | cons c rest ih =>
    intro acc t
    cases c with
    | inl u =>
      rw [show partition_union_loop (Sum.inl u :: rest) acc =
          partition_union_loop rest (pySetInsert acc.1 u, acc.2) from rfl]
      rw [ih]
      simp only [mem_pySetInsert, List.mem_cons]
      constructor
      · rintro ((h | h) | h)
        · exact Or.inl h
        · exact Or.inr (Or.inl (by rw [h]))
        · exact Or.inr (Or.inr h)
      · rintro (h | (h | h))
        · exact Or.inl (Or.inl h)
        · injection h with h
          exact Or.inl (Or.inr h)
        · exact Or.inr h
    | inr u =>
      rw [show partition_union_loop (Sum.inr u :: rest) acc =
          partition_union_loop rest (acc.1, pySetInsert acc.2 u) from rfl]
      rw [ih]
      constructor
      · rintro (h | h)
        · exact Or.inl h
        · exact Or.inr (by simp [h])
      · rintro (h | h)
        · exact Or.inl h
        · rcases List.mem_cons.mp h with h | h
          · cases h
          · exact Or.inr h

theorem partition_union_loop_memR :
    ∀ (cs : List (Nat ⊕ Nat)) (acc : List Nat × List Nat) (u : Nat),
      u ∈ (partition_union_loop cs acc).2 ↔
        u ∈ acc.2 ∨ Sum.inr u ∈ cs := by
  intro cs
  induction cs with
  | nil => simp [partition_union_loop]
  | cons c rest ih =>
    intro acc u
    cases c with
    | inl w =>
      rw [show partition_union_loop (Sum.inl w :: rest) acc =
          partition_union_loop rest (pySetInsert acc.1 w, acc.2) from rfl]
      rw [ih]
      constructor
      · rintro (h | h)
        · exact Or.inl h
        · exact Or.inr (by simp [h])
      · rintro (h | h)
        · exact Or.inl h
        · rcases List.mem_cons.mp h with h | h
          · cases h
          · exact Or.inr h
    | inr w =>
      rw [show partition_union_loop (Sum.inr w :: rest) acc =
          partition_union_loop rest (acc.1, pySetInsert acc.2 w) from rfl]
      rw [ih]
      simp only [mem_pySetInsert, List.mem_cons]
      constructor
      · rintro ((h | h) | h)
        · exact Or.inl h
        · exact Or.inr (Or.inl (by rw [h]))
        · exact Or.inr (Or.inr h)
      · rintro (h | (h | h))
        · exact Or.inl (Or.inl h)
        · injection h with h
          exact Or.inl (Or.inr h)
        · exact Or.inr h

/-- Claim C3: for every union hint, the synthesizer partitions the
child hints into PEP-noncompliant plain types and PEP-compliant hints
(`partition_union_children`), emits exactly one combined isinstance
test over a tuple of all plain types (the `nonpep` disjunct of
`union_check`, present only when that set is non-empty) or'd with one
recursively synthesized disjunct per PEP-compliant child, and the
resulting expression is true for a runtime value iff at least one
alternative's check accepts the value. -/
theorem claim3_union_check {α : Type} (instOf childCheck : Nat → α → Bool)
    (cs : List (Nat ⊕ Nat)) (v : α) :
    union_check instOf (partition_union_children cs).1
      ((partition_union_children cs).2.map childCheck) v = true ↔
      ∃ c ∈ cs, unionArgAccepts instOf childCheck v c = true := by
  unfold union_check partition_union_children
  have hif : ∀ (l : List Nat) (p : Nat → Bool),
      (if l.isEmpty then false else l.any p) = l.any p := by
    intro l p
    cases l <;> simp
  rw [hif]
  rw [Bool.or_eq_true, List.any_eq_true, List.any_eq_true]
  constructor
  · rintro (⟨t, ht, hacc⟩ | ⟨c, hc, hacc⟩)
    · have := (partition_union_loop_memL cs ([], []) t).mp ht
      rcases this with h | h
      · cases h
      · exact ⟨Sum.inl t, h, hacc⟩
    · obtain ⟨u, hu, rfl⟩ := List.mem_map.mp hc
      have := (partition_union_loop_memR cs ([], []) u).mp hu
      rcases this with h | h
      · cases h
      · exact ⟨Sum.inr u, h, hacc⟩
  · rintro ⟨c, hc, hacc⟩
    cases c with
    | inl t =>
      exact Or.inl ⟨t,
        (partition_union_loop_memL cs ([], []) t).mpr (Or.inr hc), hacc⟩
    | inr u =>
      exact Or.inr ⟨childCheck u,
        List.mem_map.mpr ⟨u,
          (partition_union_loop_memR cs ([], []) u).mpr (Or.inr hc), rfl⟩,
        hacc⟩

theorem reduceHint_self (h : Hint) (hb : h.isAnnotated = false) :
    reduceHint h = h := by
  cases h <;> first
    | rfl
    | simp [Hint.isAnnotated] at hb

theorem pep593MetaLoop_error_iff (ind : Nat) (assignedE : Chars) :
    ∀ (meta : List MetaArg),
      (∃ k, pep593MetaLoop ind assignedE meta = .error (.pep593Mixed k)) ↔
        ∃ a ∈ meta, a.isValidator = false := by
  intro meta
  induction meta with
  | nil => simp [pep593MetaLoop]
  | cons a rest ih =>
    cases a with
    | validator v =>
      rw [show pep593MetaLoop ind assignedE (.validator v :: rest) =
          (match pep593MetaLoop ind assignedE rest with
           | .error e => .error e
           | .ok r => .ok (Frag.text (pep593ChildChars ind v assignedE) :: r.1,
                           ScopeVal.validatorLocal v :: r.2)) from rfl]
      constructor
      · rintro ⟨k, hk⟩
        cases hrest : pep593MetaLoop ind assignedE rest with
        | error e =>
          rw [hrest] at hk
          injection hk with he
          obtain ⟨b, hb, hbv⟩ := ih.mp ⟨k, by rw [hrest, he]⟩
          exact ⟨b, by simp [hb], hbv⟩
        | ok r =>
          rw [hrest] at hk
          cases hk
      · rintro ⟨b, hb, hbv⟩
        rcases List.mem_cons.mp hb with rfl | hb2
        · simp [MetaArg.isValidator] at hbv
        · obtain ⟨k, hk⟩ := ih.mpr ⟨b, hb2, hbv⟩
          exact ⟨k, by rw [hk]⟩
    | other v =>
      constructor
      · intro _
        exact ⟨.other v, by simp, rfl⟩
      · intro _
        exact ⟨v, rfl⟩

/-- Claim C8: for every `Annotated` metahint whose second argument is a
beartype validator, compilation raises
`BeartypeDecorHintPep593Exception` iff at least one of the remaining
metadata arguments is not a beartype validator (the branch's metadata
loop `pep593MetaLoop` errors iff some argument is a non-validator; for
a beartype-specific metahint the first argument is a validator, so this
is equivalent to some *remaining* argument being a non-validator, and
the third conjunct exhibits the end-to-end error); a metahint whose
second argument is not a validator is instead reduced to its underlying
hint before sign dispatch — its visit is literally the visit of the
underlying hint — and never raises for this reason. -/
theorem claim8_annotated_metahint :
    (∀ (ind : Nat) (assignedE : Chars) (meta : List MetaArg),
      (∃ k, pep593MetaLoop ind assignedE meta = .error (.pep593Mixed k)) ↔
        ∃ a ∈ meta, a.isValidator = false) ∧
    (∀ (b : Hint) (meta : List MetaArg),
      is_hint_pep593_beartype meta = false →
      reduceHint (.annotated b meta) = b) ∧
    (∀ (b : Hint) (meta : List MetaArg) (ph : Nat) (p : Chars) (i : Nat)
        (st : BfsSt),
      is_hint_pep593_beartype meta = false → b.isAnnotated = false →
      visit ⟨.annotated b meta, ph, p, i⟩ st = visit ⟨b, ph, p, i⟩ st) ∧
    (∀ (t k m : Nat),
      pep_code_check_hint
        (Hint.annotated (Hint.cls t) [.validator k, .other m]) =
        .error (.pep593Mixed m)) := by
  refine ⟨pep593MetaLoop_error_iff, ?_, ?_, ?_⟩
  · intro b meta hbt
    simp [reduceHint, hbt]
  · intro b meta ph p i st hbt hb
    have h1 : reduceHint (Hint.annotated b meta) = b := by
      simp [reduceHint, hbt]
    have h2 : reduceHint b = b := reduceHint_self b hb
    unfold visit
    rw [show (⟨Hint.annotated b meta, ph, p, i⟩ : WorkItem).hint =
        Hint.annotated b meta from rfl]
    rw [show (⟨b, ph, p, i⟩ : WorkItem).hint = b from rfl]
    rw [h1, h2]
    cases b <;> rfl
  · intro t k m
    rfl

/-- Witness for claim C8: a metahint with a non-validator second
argument reduces to its underlying hint, and a metahint mixing a
validator with a non-validator raises
`BeartypeDecorHintPep593Exception` end to end. -/
theorem claim8_witness :
    reduceHint (Hint.annotated (Hint.cls 0) [MetaArg.other 5]) =
      Hint.cls 0 ∧
    pep_code_check_hint
      (Hint.annotated (Hint.cls 1) [.validator 2, .other 7]) =
      .error (.pep593Mixed 7) :=
  ⟨claim8_annotated_metahint.2.1 (Hint.cls 0) [MetaArg.other 5] (by decide),
   claim8_annotated_metahint.2.2.2 1 2 7⟩

-- ....................  at-sign freedom of template texts  ....................

theorem indentChars_atFree (n : Nat) : '@' ∉ indentChars n := by
  induction n with
  | zero => simp [indentChars]
  | succ m ih =>
    unfold indentChars
    simp +decide [List.mem_append, strChars, ih]

theorem decChars_atFree (n : Nat) : '@' ∉ decChars n := by
  intro hmem
  have := decChars_isDigit n '@' hmem
  simp [Char.isDigit] at this

theorem typeExprChars_atFree (t : Nat) : '@' ∉ typeExprChars t := by
  unfold typeExprChars
  simp +decide [List.mem_append, strChars, decChars_atFree]

theorem typesExprChars_atFree (ts : List Nat) : '@' ∉ typesExprChars ts := by
  unfold typesExprChars
  intro hmem
  rcases List.mem_append.mp hmem with h | h
  · revert h
    simp +decide [strChars]
  · obtain ⟨t, _, hf⟩ := List.mem_flatMap.mp h
    rcases List.mem_append.mp hf with h2 | h2
    · revert h2
      simp +decide [strChars]
    · exact decChars_atFree t h2

theorem typistryExprChars_atFree {name : Chars} (hn : '@' ∉ name) :
    '@' ∉ typistryExprChars name := by
  unfold typistryExprChars
  simp +decide [List.mem_append, strChars, hn]

theorem isinstanceChars_atFree {p c : Chars} (hp : '@' ∉ p) (hc : '@' ∉ c) :
    '@' ∉ isinstanceChars p c := by
  unfold isinstanceChars
  simp +decide [List.mem_append, strChars, hp, hc]

theorem seqCheckPreChars_atFree (ind : Nat) {a b c : Chars}
    (ha : '@' ∉ a) (hb : '@' ∉ b) (hc : '@' ∉ c) :
    '@' ∉ seqCheckPreChars ind a b c := by
  unfold seqCheckPreChars
  simp +decide [List.mem_append, strChars, indentChars_atFree, ha, hb, hc]

theorem seqCheckSufChars_atFree (ind : Nat) : '@' ∉ seqCheckSufChars ind := by
  unfold seqCheckSufChars
  simp +decide [List.mem_append, strChars, indentChars_atFree]

theorem seqPithChildChars_atFree {a : Chars} (ha : '@' ∉ a) :
    '@' ∉ seqPithChildChars a := by
  unfold seqPithChildChars
  simp +decide [List.mem_append, strChars, ha]

theorem tupleFixedPreChars_atFree (ind : Nat) {a : Chars} (ha : '@' ∉ a) :
    '@' ∉ tupleFixedPreChars ind a := by
  unfold tupleFixedPreChars
  simp +decide [List.mem_append, strChars, indentChars_atFree, ha]

theorem tupleEmptyChars_atFree (ind : Nat) {a : Chars} (ha : '@' ∉ a) :
    '@' ∉ tupleEmptyChars ind a := by
  unfold tupleEmptyChars
  simp +decide [List.mem_append, strChars, indentChars_atFree, ha]

theorem tupleLenChars_atFree (ind : Nat) {a : Chars} (n : Nat)
    (ha : '@' ∉ a) : '@' ∉ tupleLenChars ind a n := by
  unfold tupleLenChars
  simp +decide [List.mem_append, strChars, indentChars_atFree, ha,
    decChars_atFree]

theorem tupleChildSepChars_atFree (ind : Nat) :
    '@' ∉ tupleChildSepChars ind := by
  unfold tupleChildSepChars
  simp +decide [List.mem_append, strChars, indentChars_atFree]

theorem tupleFixedSufChars_atFree (ind : Nat) :
    '@' ∉ tupleFixedSufChars ind := by
  unfold tupleFixedSufChars
  simp +decide [List.mem_append, strChars, indentChars_atFree]

theorem tuplePithChildChars_atFree {a : Chars} (idx : Nat) (ha : '@' ∉ a) :
    '@' ∉ tuplePithChildChars a idx := by
  unfold tuplePithChildChars
  simp +decide [List.mem_append, strChars, ha, decChars_atFree]

theorem unionPreChars_atFree : '@' ∉ unionPreChars := by decide

theorem unionNonpepChars_atFree (ind : Nat) {p t : Chars}
    (hp : '@' ∉ p) (ht : '@' ∉ t) : '@' ∉ unionNonpepChars ind p t := by
  unfold unionNonpepChars
  simp +decide [List.mem_append, strChars, indentChars_atFree, hp, ht]

theorem unionChildSepChars_atFree (first : Bool) (ind : Nat) :
    '@' ∉ unionChildSepChars first ind := by
  unfold unionChildSepChars
  cases first <;>
    simp +decide [List.mem_append, strChars, indentChars_atFree]

theorem unionSufChars_atFree (ind : Nat) : '@' ∉ unionSufChars ind := by
  unfold unionSufChars
  simp +decide [List.mem_append, strChars, indentChars_atFree]

theorem pep593PreChars_atFree (ind : Nat) : '@' ∉ pep593PreChars ind := by
  unfold pep593PreChars
  simp +decide [List.mem_append, strChars, indentChars_atFree]

theorem pep593ChildChars_atFree (ind k : Nat) {a : Chars} (ha : '@' ∉ a) :
    '@' ∉ pep593ChildChars ind k a := by
  unfold pep593ChildChars
  simp +decide [List.mem_append, strChars, indentChars_atFree, ha,
    decChars_atFree]

theorem pep593SufChars_atFree (ind : Nat) : '@' ∉ pep593SufChars ind := by
  unfold pep593SufChars
  simp +decide [List.mem_append, strChars, indentChars_atFree]

theorem rootSufChars_atFree (rand : Bool) : '@' ∉ rootSufChars rand := by
  cases rand <;> decide

theorem pithAssignCalc_atFree {p : Chars} (ctr : Nat) (hp : '@' ∉ p) :
    '@' ∉ (pithAssignCalc ctr p).2.1 ∧ '@' ∉ (pithAssignCalc ctr p).2.2 := by
  unfold pithAssignCalc
  by_cases h : p ≠ pithRootChars
  · rw [if_pos h]
    constructor
    · simp +decide [List.mem_append, strChars, pithNameChars,
        decChars_atFree, hp]
    · simp +decide [List.mem_append, strChars, pithNameChars,
        decChars_atFree]
  · rw [if_neg h]
    exact ⟨hp, hp⟩

-- ....................  builder lemmas  ....................

theorem unionPepLoop_facts (hNp : Bool) (indP indC : Nat)
    (aE aeE : Chars) (haE : '@' ∉ aE) (haeE : '@' ∉ aeE) :
    ∀ (l : List Hint) (idx nid : Nat),
      (unionPepLoop hNp indP indC aE aeE idx nid l).2.map WorkItem.ph =
        List.range' nid l.length ∧
      (unionPepLoop hNp indP indC aE aeE idx nid l).2.map WorkItem.hint =
        l ∧
      (∀ j, countPh (unionPepLoop hNp indP indC aE aeE idx nid l).1 j =
        if j ∈ List.range' nid l.length then 1 else 0) ∧
      (∀ n, countFwd (unionPepLoop hNp indP indC aE aeE idx nid l).1 n = 0) ∧
      (∀ f ∈ (unionPepLoop hNp indP indC aE aeE idx nid l).1,
        fragAtFree f = true) ∧
      (∀ w ∈ (unionPepLoop hNp indP indC aE aeE idx nid l).2,
        '@' ∉ w.pith) := by
  intro l
  induction l with
  | nil =>
    intro idx nid
    simp [unionPepLoop, countPh, countFwd]
  | cons h hs ih =>
    intro idx nid
    obtain ⟨ih1, ih2, ih3, ih4, ih5, ih6⟩ := ih (idx + 1) (nid + 1)
    rw [show unionPepLoop hNp indP indC aE aeE idx nid (h :: hs) =
        (Frag.text (unionChildSepChars (idx = 0 && !hNp) indP) ::
         Frag.ph nid ::
         (unionPepLoop hNp indP indC aE aeE (idx + 1) (nid + 1) hs).1,
         ⟨h, nid, if hNp = true ∨ 1 < idx then aeE else aE, indC⟩ ::
         (unionPepLoop hNp indP indC aE aeE (idx + 1) (nid + 1) hs).2)
        from rfl]
    refine ⟨?_, ?_, ?_, ?_, ?_, ?_⟩
    · simp only [List.map_cons, ih1, List.length_cons]
      rw [List.range'_succ]
    · simp only [List.map_cons, ih2]
    · intro j
      rw [show countPh
          (Frag.text (unionChildSepChars (idx = 0 && !hNp) indP) ::
           Frag.ph nid ::
           (unionPepLoop hNp indP indC aE aeE (idx + 1) (nid + 1) hs).1) j =
          (if nid = j then 1 else 0) +
            countPh (unionPepLoop hNp indP indC aE aeE
              (idx + 1) (nid + 1) hs).1 j from rfl]
      rw [ih3 j, List.length_cons, List.range'_succ]
      by_cases hj : nid = j
      · subst hj
        have : nid ∉ List.range' (nid + 1) hs.length := by
          rw [List.mem_range'_1]
          omega
        simp [this]
      · have hj' : j ≠ nid := Ne.symm hj
        have : (j ∈ nid :: List.range' (nid + 1) hs.length) ↔
            j ∈ List.range' (nid + 1) hs.length := by
          simp [List.mem_cons, hj']
        rw [if_neg hj]
        by_cases hj2 : j ∈ List.range' (nid + 1) hs.length <;>
          simp [hj2, this]
    · intro n
      rw [show countFwd
          (Frag.text (unionChildSepChars (idx = 0 && !hNp) indP) ::
           Frag.ph nid ::
           (unionPepLoop hNp indP indC aE aeE (idx + 1) (nid + 1) hs).1) n =
          countFwd (unionPepLoop hNp indP indC aE aeE
            (idx + 1) (nid + 1) hs).1 n from rfl]
      exact ih4 n
    · intro f hf
      rcases List.mem_cons.mp hf with rfl | hf
      · simp [fragAtFree, unionChildSepChars_atFree]
      · rcases List.mem_cons.mp hf with rfl | hf
        · rfl
        · exact ih5 f hf
    · intro w hw
      rcases List.mem_cons.mp hw with rfl | hw
      · by_cases hcond : hNp = true ∨ 1 < idx <;> simp [hcond, haE, haeE]
      · exact ih6 w hw

theorem tupleChildLoop_facts (ind indC : Nat) (aeE : Chars)
    (haeE : '@' ∉ aeE) :
    ∀ (args : List (Option Hint)) (idx nid : Nat),
      (tupleChildLoop ind indC aeE idx nid args).2.map WorkItem.ph =
        List.range' nid (args.filterMap id).length ∧
      (tupleChildLoop ind indC aeE idx nid args).2.map WorkItem.hint =
        args.filterMap id ∧
      (∀ j, countPh (tupleChildLoop ind indC aeE idx nid args).1 j =
        if j ∈ List.range' nid (args.filterMap id).length then 1 else 0) ∧
      (∀ n, countFwd (tupleChildLoop ind indC aeE idx nid args).1 n = 0) ∧
      (∀ f ∈ (tupleChildLoop ind indC aeE idx nid args).1,
        fragAtFree f = true) ∧
      (∀ w ∈ (tupleChildLoop ind indC aeE idx nid args).2,
        '@' ∉ w.pith) := by
  intro args
  induction args with
  | nil =>
    intro idx nid
    simp [tupleChildLoop, countPh, countFwd]
  | cons a rest ih =>
    intro idx nid
    cases a with
    | none =>
      obtain ⟨ih1, ih2, ih3, ih4, ih5, ih6⟩ := ih (idx + 1) nid
      rw [show tupleChildLoop ind indC aeE idx nid (none :: rest) =
          tupleChildLoop ind indC aeE (idx + 1) nid rest from rfl]
      rw [show (none :: rest).filterMap (@id (Option Hint)) =
          rest.filterMap id from rfl]
      exact ⟨ih1, ih2, ih3, ih4, ih5, ih6⟩
    | some h =>
      obtain ⟨ih1, ih2, ih3, ih4, ih5, ih6⟩ := ih (idx + 1) (nid + 1)
      rw [show tupleChildLoop ind indC aeE idx nid (some h :: rest) =
          (Frag.text (tupleChildSepChars ind) :: Frag.ph nid ::
            (tupleChildLoop ind indC aeE (idx + 1) (nid + 1) rest).1,
           ⟨h, nid, tuplePithChildChars aeE idx, indC⟩ ::
            (tupleChildLoop ind indC aeE (idx + 1) (nid + 1) rest).2)
          from rfl]
      rw [show (some h :: rest).filterMap (@id (Option Hint)) =
          h :: rest.filterMap id from rfl]
      refine ⟨?_, ?_, ?_, ?_, ?_, ?_⟩
      · simp only [List.map_cons, ih1, List.length_cons]
        rw [List.range'_succ]
      · simp only [List.map_cons, ih2]
      · intro j
        rw [show countPh
            (Frag.text (tupleChildSepChars ind) :: Frag.ph nid ::
              (tupleChildLoop ind indC aeE (idx + 1) (nid + 1) rest).1) j =
            (if nid = j then 1 else 0) +
              countPh (tupleChildLoop ind indC aeE
                (idx + 1) (nid + 1) rest).1 j from rfl]
        rw [ih3 j, List.length_cons, List.range'_succ]
        by_cases hj : nid = j
        · subst hj
          have : nid ∉ List.range' (nid + 1) (rest.filterMap id).length := by
            rw [List.mem_range'_1]
            omega
          simp [this]
        · have hj' : j ≠ nid := Ne.symm hj
          have : (j ∈ nid :: List.range' (nid + 1)
              (rest.filterMap id).length) ↔
              j ∈ List.range' (nid + 1) (rest.filterMap id).length := by
            simp [List.mem_cons, hj']
          rw [if_neg hj]
          by_cases hj2 : j ∈ List.range' (nid + 1)
              (rest.filterMap id).length <;>
            simp [hj2, this]
      · intro n
        rw [show countFwd
            (Frag.text (tupleChildSepChars ind) :: Frag.ph nid ::
              (tupleChildLoop ind indC aeE (idx + 1) (nid + 1) rest).1) n =
            countFwd (tupleChildLoop ind indC aeE
              (idx + 1) (nid + 1) rest).1 n from rfl]
        exact ih4 n
      · intro f hf
        rcases List.mem_cons.mp hf with rfl | hf
        · simp [fragAtFree, tupleChildSepChars_atFree]
        · rcases List.mem_cons.mp hf with rfl | hf
          · rfl
          · exact ih5 f hf
      · intro w hw
        rcases List.mem_cons.mp hw with rfl | hw
        · exact tuplePithChildChars_atFree idx haeE
        · exact ih6 w hw

theorem pep593MetaLoop_ok_facts (ind : Nat) (aeE : Chars)
    (haeE : '@' ∉ aeE) :
    ∀ (meta : List MetaArg) (r : List Frag × List ScopeVal),
      pep593MetaLoop ind aeE meta = .ok r →
      (∀ j, countPh r.1 j = 0) ∧
      (∀ n, countFwd r.1 n = 0) ∧
      (∀ f ∈ r.1, fragAtFree f = true) := by
  intro meta
  induction meta with
  | nil =>
    intro r hr
    injection hr with hr
    rw [← hr]
    exact ⟨fun j => rfl, fun n => rfl, by simp⟩
  | cons a rest ih =>
    intro r hr
    cases a with
    | validator v =>
      rw [show pep593MetaLoop ind aeE (.validator v :: rest) =
          (match pep593MetaLoop ind aeE rest with
           | .error e => .error e
           | .ok r0 => .ok (Frag.text (pep593ChildChars ind v aeE) :: r0.1,
                            ScopeVal.validatorLocal v :: r0.2))
          from rfl] at hr
      cases hrest : pep593MetaLoop ind aeE rest with
      | error e =>
        rw [hrest] at hr
        cases hr
      | ok r0 =>
        rw [hrest] at hr
        injection hr with hr
        obtain ⟨i1, i2, i3⟩ := ih r0 hrest
        rw [← hr]
        refine ⟨fun j => ?_, fun n => ?_, ?_⟩
        · rw [show countPh (Frag.text (pep593ChildChars ind v aeE) ::
              r0.1) j = countPh r0.1 j from rfl]
          exact i1 j
        · rw [show countFwd (Frag.text (pep593ChildChars ind v aeE) ::
              r0.1) n = countFwd r0.1 n from rfl]
          exact i2 n
        · intro f hf
          rcases List.mem_cons.mp hf with rfl | hf
          · simp [fragAtFree, pep593ChildChars_atFree ind v haeE]
          · exact i3 f hf
    | other v =>
      cases hr

-- ....................  invariant step lemmas  ....................

theorem finishVisit_ok (it : WorkItem) (st : BfsSt) (snip : List Frag)
    (new : List WorkItem) (scope : List ScopeVal)
    (fwd : Option (List Chars)) (rand : Bool) (nph pc : Nat)
    (st₁ : BfsSt) (new₁ : List WorkItem)
    (hok : finishVisit it st snip new scope fwd rand nph pc =
      .ok (st₁, new₁)) :
    new₁ = new ∧
    st₁ = ⟨substPh st.code it.ph snip, scope, fwd, rand, nph, pc,
      st.substs + 1⟩ ∧
    countPh st.code it.ph ≠ 0 := by
  unfold finishVisit replace_str_substrs at hok
  by_cases hc : countPh st.code it.ph = 0
  · rw [if_pos hc] at hok
    cases hok
  · rw [if_neg hc] at hok
    replace hok : Except.ok (ε := Err)
        ((⟨substPh st.code it.ph snip, scope, fwd, rand, nph, pc,
          st.substs + 1⟩ : BfsSt), new) = .ok (st₁, new₁) := hok
    injection hok with h
    exact ⟨(congrArg Prod.snd h).symm, (congrArg Prod.fst h).symm, hc⟩

theorem step_inv (it : WorkItem) (rest : List WorkItem) (st : BfsSt)
    (snip : List Frag) (new : List WorkItem) (k : Nat)
    (scope : List ScopeVal) (fwd : Option (List Chars)) (rand : Bool)
    (pc : Nat)
    (hInv : Inv (it :: rest) st)
    (hsnipPh : ∀ id, countPh snip id =
      if id ∈ List.range' st.nextPh k then 1 else 0)
    (hnewPh : new.map WorkItem.ph = List.range' st.nextPh k)
    (hsnipAt : ∀ f ∈ snip, fragAtFree f = true)
    (hnewPith : ∀ w ∈ new, '@' ∉ w.pith)
    (hnewWf : ∀ w ∈ new, hintWf w.hint = true) :
    Inv (rest ++ new)
      ⟨substPh st.code it.ph snip, scope, fwd, rand, st.nextPh + k, pc,
        st.substs + 1⟩ := by
  have hcur : countPh st.code it.ph = 1 := by
    rw [hInv.countEq it.ph]
    simp
  have hrestLt : ∀ w ∈ rest, w.ph < st.nextPh := fun w hw =>
    hInv.phLt w (by simp [hw])
  have hitLt : it.ph < st.nextPh := hInv.phLt it (by simp)
  have hrestNodup : (rest.map WorkItem.ph).Nodup ∧
      it.ph ∉ rest.map WorkItem.ph := by
    have := hInv.nodup
    rw [show (it :: rest).map WorkItem.ph =
        it.ph :: rest.map WorkItem.ph from rfl] at this
    exact ⟨this.of_cons, (List.nodup_cons.mp this).1⟩
  refine ⟨?_, ?_, ?_, ?_, ?_, ?_, ?_⟩
  · intro id
    rw [countPh_substPh, hcur, one_mul, hsnipPh id]
    rw [show (rest ++ new).map WorkItem.ph =
        rest.map WorkItem.ph ++ new.map WorkItem.ph from by
      simp]
    rw [hnewPh]
    by_cases h1 : id = it.ph
    · have h2 : it.ph ∉ List.range' st.nextPh k := by
        rw [List.mem_range'_1]
        omega
      have h3 : it.ph ∉ rest.map WorkItem.ph := hrestNodup.2
      rw [h1]
      simp [h2, h3]
    · rw [if_neg h1, hInv.countEq id]
      by_cases h2 : id ∈ rest.map WorkItem.ph
      · have h3 : id ∈ (it :: rest).map WorkItem.ph := by simp [h2]
        have h4 : id < st.nextPh := by
          obtain ⟨w, hw, rfl⟩ := List.mem_map.mp h2
          exact hrestLt w hw
        have h5 : id ∉ List.range' st.nextPh k := by
          rw [List.mem_range'_1]
          omega
        simp [h2, h3, h5]
      · have h3 : id ∉ (it :: rest).map WorkItem.ph := by
          simp only [List.map_cons, List.mem_cons]
          rintro (h | h)
          · exact h1 h
          · exact h2 h
        by_cases h4 : id ∈ List.range' st.nextPh k
        · simp [h1, h2, h3, h4]
        · simp [h1, h2, h3, h4]
  · rw [show (rest ++ new).map WorkItem.ph =
        rest.map WorkItem.ph ++ new.map WorkItem.ph from by simp]
    rw [List.nodup_append]
    refine ⟨hrestNodup.1, by rw [hnewPh]; exact List.nodup_range' _ _, ?_⟩
    intro a ha hb
    rw [hnewPh, List.mem_range'_1] at hb
    obtain ⟨w, hw, rfl⟩ := List.mem_map.mp ha
    have := hrestLt w hw
    omega
  · intro w hw
    rcases List.mem_append.mp hw with h | h
    · have := hrestLt w h
      show w.ph < st.nextPh + k
      omega
    · have : w.ph ∈ List.range' st.nextPh k := by
        rw [← hnewPh]
        exact List.mem_map.mpr ⟨w, h, rfl⟩
      rw [List.mem_range'_1] at this
      show w.ph < st.nextPh + k
      omega
  · show st.substs + 1 + (rest ++ new).length = st.nextPh + k
    have h1 : st.substs + (it :: rest).length = st.nextPh := hInv.substEq
    have h2 : new.length = k := by
      have := congrArg List.length hnewPh
      simpa using this
    simp only [List.length_append, List.length_cons] at h1 ⊢
    omega
  · exact substPh_atFree st.code it.ph snip hInv.codeAtFree hsnipAt
  · intro w hw
    rcases List.mem_append.mp hw with h | h
    · exact hInv.pithAtFree w (by simp [h])
    · exact hnewPith w h
  · intro w hw
    rcases List.mem_append.mp hw with h | h
    · exact hInv.hintsWf w (by simp [h])
    · exact hnewWf w h

theorem step_extra (it : WorkItem) (st : BfsSt) (snip : List Frag)
    (scope : List ScopeVal) (fwd : Option (List Chars)) (rand : Bool)
    (nph pc : Nat) (st₁ : BfsSt)
    (hst : st₁ = ⟨substPh st.code it.ph snip, scope, fwd, rand, nph, pc,
      st.substs + 1⟩)
    (hcur : countPh st.code it.ph = 1) :
    (∀ n, countFwd st.code n ≤ countFwd st₁.code n) ∧
    (∀ n, 1 ≤ countFwd snip n → 1 ≤ countFwd st₁.code n) := by
  subst hst
  constructor
  · intro n
    show countFwd st.code n ≤ countFwd (substPh st.code it.ph snip) n
    rw [countFwd_substPh]
    omega
  · intro n hs
    show 1 ≤ countFwd (substPh st.code it.ph snip) n
    rw [countFwd_substPh, hcur]
    omega

theorem countPh_onePh (a b : Chars) (p j : Nat) :
    countPh [Frag.text a, Frag.ph p, Frag.text b] j =
      if j ∈ List.range' p 1 then 1 else 0 := by
  by_cases hj : p = j
  · subst hj
    have : p ∈ List.range' p 1 := by
      rw [List.mem_range'_1]
      omega
    simp [countPh, this]
  · have hm : ¬ j ∈ List.range' p 1 := by
      rw [List.mem_range'_1]
      omega
    simp [countPh, hj, hm, Ne.symm hj]

theorem hintWfList_mem :
    ∀ (l : List Hint), hintWfList l = true → ∀ c ∈ l, hintWf c = true := by
  intro l
  induction l with
  | nil => intro _ c hc; cases hc
  | cons h t ih =>
    intro hwf c hc
    rw [show hintWfList (h :: t) = (hintWf h && hintWfList t) from rfl,
      Bool.and_eq_true] at hwf
    rcases List.mem_cons.mp hc with rfl | hc
    · exact hwf.1
    · exact ih hwf.2 c hc

theorem hintWfOpt_mem :
    ∀ (l : List (Option Hint)), hintWfOpt l = true →
      ∀ c ∈ l.filterMap id, hintWf c = true := by
  intro l
  induction l with
  | nil => intro _ c hc; cases hc
  | cons a t ih =>
    intro hwf c hc
    cases a with
    | none =>
      rw [show hintWfOpt (none :: t) = hintWfOpt t from rfl] at hwf
      rw [show (none :: t).filterMap (@id (Option Hint)) =
          t.filterMap id from rfl] at hc
      exact ih hwf c hc
    | some h =>
      rw [show hintWfOpt (some h :: t) = (hintWf h && hintWfOpt t) from rfl,
        Bool.and_eq_true] at hwf
      rw [show (some h :: t).filterMap (@id (Option Hint)) =
          h :: t.filterMap id from rfl] at hc
      rcases List.mem_cons.mp hc with rfl | hc
      · exact hwf.1
      · exact ih hwf.2 c hc

theorem reduceHint_wf (h : Hint) (hwf : hintWf h = true) :
    hintWf (reduceHint h) = true := by
  cases h with
  | annotated b meta =>
    have hb : hintWf b = true := by
      rw [show hintWf (Hint.annotated b meta) =
          (!b.isAnnotated && hintWf b) from rfl, Bool.and_eq_true] at hwf
      exact hwf.2
    by_cases hbt : is_hint_pep593_beartype meta = true
    · rw [show reduceHint (Hint.annotated b meta) =
          Hint.annotated b meta from by simp [reduceHint, hbt]]
      exact hwf
    · have hbt' : is_hint_pep593_beartype meta = false :=
        Bool.eq_false_iff.mpr hbt
      rw [show reduceHint (Hint.annotated b meta) = b from by
        simp [reduceHint, hbt']]
      exact hb
  | cls t => exact hwf
  | stdOrigin t => exact hwf
  | noReturn => exact hwf
  | unsupported tag => exact hwf
  | notPep tag => exact hwf
  | union np pep => exact hwf
  | seqStd o c => exact hwf
  | tupleFixed e args => exact hwf
  | forwardref n => exact hwf

theorem foldl_pySetInsert_mono {γ : Type} [DecidableEq γ] :
    ∀ (l : List γ) (s : List γ) (v : γ), v ∈ s →
      v ∈ l.foldl pySetInsert s := by
  intro l
  induction l with
  | nil => intro s v hv; exact hv
  | cons a t ih =>
    intro s v hv
    rw [show (a :: t).foldl pySetInsert s =
        t.foldl pySetInsert (pySetInsert s a) from rfl]
    exact ih _ v ((mem_pySetInsert s a v).mpr (Or.inl hv))

theorem countPh_cons_text (s : Chars) (l : List Frag) (j : Nat) :
    countPh (Frag.text s :: l) j = countPh l j := rfl

theorem countPh_cons_ph (p : Nat) (l : List Frag) (j : Nat) :
    countPh (Frag.ph p :: l) j = (if p = j then 1 else 0) + countPh l j := rfl

theorem countPh_cons_fwdref (m : Chars) (l : List Frag) (j : Nat) :
    countPh (Frag.fwdref m :: l) j = countPh l j := rfl

theorem countPh_singleton_text (s : Chars) (j : Nat) :
    countPh [Frag.text s] j = 0 := rfl

theorem countFwd_cons_fwdref (m : Chars) (l : List Frag) (n : Chars) :
    countFwd (Frag.fwdref m :: l) n =
      (if m = n then 1 else 0) + countFwd l n := rfl

theorem not_mem_range'_zero (s j : Nat) : ¬ j ∈ List.range' s 0 := by
  rw [List.mem_range'_1]
  omega

set_option maxHeartbeats 12000000 in
/-- The central step lemma of the breadth-first search: a successful
visit of the queue head preserves the loop invariant on the remaining
queue extended by the enqueued children, enqueues exactly the children
of the reduced hint, only grows the wrapper scope, extends the
forward-reference name set by exactly the visited unqualified
forward-reference classname (if any), binds the beartypistry when the
visited hint is a qualified forward reference, never removes
forward-reference placeholders from the code buffer, and embeds a
forward-reference placeholder for a visited unqualified forward
reference. -/
theorem visit_inv (it : WorkItem) (rest : List WorkItem) (st : BfsSt)
    (st₁ : BfsSt) (new : List WorkItem)
    (hInv : Inv (it :: rest) st)
    (hv : visit it st = .ok (st₁, new)) :
    Inv (rest ++ new) st₁ ∧
    new.map WorkItem.hint = enqueuedChildren (reduceHint it.hint) ∧
    (∀ v ∈ st.scope, v ∈ st₁.scope) ∧
    (∀ n, fwdMem st₁ n ↔ (fwdMem st n ∨
      (reduceHint it.hint = .forwardref n ∧ decide ('.' ∈ n) = false))) ∧
    (∀ n, reduceHint it.hint = .forwardref n → decide ('.' ∈ n) = true →
      ScopeVal.typistry ∈ st₁.scope) ∧
    (∀ n, countFwd st.code n ≤ countFwd st₁.code n) ∧
    (∀ n, reduceHint it.hint = .forwardref n → decide ('.' ∈ n) = false →
      1 ≤ countFwd st₁.code n) := by
  have hpith : '@' ∉ it.pith := hInv.pithAtFree it (by simp)
  have hwfr : hintWf (reduceHint it.hint) = true :=
    reduceHint_wf it.hint (hInv.hintsWf it (by simp))
  have hpa := pithAssignCalc_atFree st.pithCtr hpith
  have hcur : countPh st.code it.ph = 1 := by
    rw [hInv.countEq it.ph]
    simp
  unfold visit at hv
  cases hred : reduceHint it.hint with
  | notPep tag =>
    rw [hred] at hv
    cases hv
  | unsupported tag =>
    rw [hred] at hv
    cases hv
  | noReturn =>
    rw [hred] at hv
    cases hv
  | cls t =>
    rw [hred] at hv
    obtain ⟨hnew, hst, hcnt⟩ := finishVisit_ok it st _ _ _ _ _ _ _ st₁ new hv
    subst hnew
    subst hst
    refine ⟨?_, rfl, ?_, ?_, ?_, ?_, ?_⟩
    · refine step_inv it rest st _ [] 0 _ _ _ _ hInv ?_ ?_ ?_ ?_ ?_
      · intro j
        rw [countPh_singleton_text]
        simp [not_mem_range'_zero]
      · simp
      · intro f hf
        rcases List.mem_cons.mp hf with rfl | hf
        · show decide ('@' ∉ isinstanceChars it.pith (typeExprChars t)) = true
          exact decide_eq_true
            (isinstanceChars_atFree hpith (typeExprChars_atFree t))
        · cases hf
      · intro w hw
        cases hw
      · intro w hw
        cases hw
    · intro v hv2
      exact (mem_pySetInsert _ _ _).mpr (Or.inl hv2)
    · intro n
      constructor
      · exact fun h => Or.inl h
      · rintro (h | ⟨heq, _⟩)
        · exact h
        · cases heq
    · intro n hn
      cases hn
    · exact (step_extra it st _ _ _ _ _ _ _ rfl hcur).1
    · intro n hn
      cases hn
  | stdOrigin t =>
    rw [hred] at hv
    obtain ⟨hnew, hst, hcnt⟩ := finishVisit_ok it st _ _ _ _ _ _ _ st₁ new hv
    subst hnew
    subst hst
    refine ⟨?_, rfl, ?_, ?_, ?_, ?_, ?_⟩
    · refine step_inv it rest st _ [] 0 _ _ _ _ hInv ?_ ?_ ?_ ?_ ?_
      · intro j
        rw [countPh_singleton_text]
        simp [not_mem_range'_zero]
      · simp
      · intro f hf
        rcases List.mem_cons.mp hf with rfl | hf
        · show decide ('@' ∉ isinstanceChars it.pith (typeExprChars t)) = true
          exact decide_eq_true
            (isinstanceChars_atFree hpith (typeExprChars_atFree t))
        · cases hf
      · intro w hw
        cases hw
      · intro w hw
        cases hw
    · intro v hv2
      exact (mem_pySetInsert _ _ _).mpr (Or.inl hv2)
    · intro n
      constructor
      · exact fun h => Or.inl h
      · rintro (h | ⟨heq, _⟩)
        · exact h
        · cases heq
    · intro n hn
      cases hn
    · exact (step_extra it st _ _ _ _ _ _ _ rfl hcur).1
    · intro n hn
      cases hn
  | union np pep =>
    rw [hred] at hv
    rw [hred] at hwfr
    replace hv : (if (np.isEmpty && pep.isEmpty) = true
        then (.error .unionUnsubscripted : Except Err (BfsSt × List WorkItem))
        else finishVisit it st
          (Frag.text unionPreChars ::
            (if np.isEmpty = true then []
             else [Frag.text (unionNonpepChars it.indent
               (if pep.isEmpty = true then it.pith
                else (pithAssignCalc st.pithCtr it.pith).2.1)
               (typesExprChars np))]) ++
            (unionPepLoop (!np.isEmpty) it.indent (it.indent + 1)
              (pithAssignCalc st.pithCtr it.pith).2.1
              (pithAssignCalc st.pithCtr it.pith).2.2 0 st.nextPh pep).1 ++
            [Frag.text (unionSufChars it.indent)])
          (unionPepLoop (!np.isEmpty) it.indent (it.indent + 1)
            (pithAssignCalc st.pithCtr it.pith).2.1
            (pithAssignCalc st.pithCtr it.pith).2.2 0 st.nextPh pep).2
          (if np.isEmpty = true then st.scope
           else pySetInsert st.scope (ScopeVal.typs np))
          st.fwdrefs st.randNeeded (st.nextPh + pep.length)
          (pithAssignCalc st.pithCtr it.pith).1) = .ok (st₁, new) := hv
    by_cases hne : (np.isEmpty && pep.isEmpty) = true
    · rw [if_pos hne] at hv
      cases hv
    · rw [if_neg hne] at hv
      obtain ⟨uf1, uf2, uf3, uf4, uf5, uf6⟩ :=
        unionPepLoop_facts (!np.isEmpty) it.indent (it.indent + 1)
          (pithAssignCalc st.pithCtr it.pith).2.1
          (pithAssignCalc st.pithCtr it.pith).2.2 hpa.1 hpa.2 pep 0 st.nextPh
      obtain ⟨hnew, hst, hcnt⟩ :=
        finishVisit_ok it st _ _ _ _ _ _ _ st₁ new hv
      subst hnew
      subst hst
      refine ⟨?_, ?_, ?_, ?_, ?_, ?_, ?_⟩
      · refine step_inv it rest st _ _ pep.length _ _ _ _ hInv ?_ ?_ ?_ ?_ ?_
        · intro j
          rw [countPh_append, countPh_append, countPh_cons_text,
            countPh_singleton_text, uf3 j]
          by_cases hnpe : np.isEmpty = true
          · rw [if_pos hnpe]
            rw [show countPh ([] : List Frag) j = 0 from rfl]
            omega
          · rw [if_neg hnpe]
            rw [countPh_singleton_text]
            omega
        · exact uf1
        · intro f hf
          rcases List.mem_append.mp hf with hf | hf
          · rcases List.mem_append.mp hf with hf | hf
            · rcases List.mem_cons.mp hf with rfl | hf
              · exact decide_eq_true unionPreChars_atFree
              · by_cases hnpe : np.isEmpty = true
                · rw [if_pos hnpe] at hf
                  cases hf
                · rw [if_neg hnpe] at hf
                  rcases List.mem_singleton.mp hf with rfl
                  show decide ('@' ∉ unionNonpepChars it.indent _ _) = true
                  refine decide_eq_true (unionNonpepChars_atFree it.indent
                    ?_ (typesExprChars_atFree np))
                  by_cases hpe : pep.isEmpty = true
                  · rw [if_pos hpe]
                    exact hpith
                  · rw [if_neg hpe]
                    exact hpa.1
            · exact uf5 f hf
          · rcases List.mem_singleton.mp hf with rfl
            exact decide_eq_true (unionSufChars_atFree it.indent)
        · exact uf6
        · intro w hw
          have : w.hint ∈ pep := by
            rw [show pep =
                (unionPepLoop (!np.isEmpty) it.indent (it.indent + 1)
                  (pithAssignCalc st.pithCtr it.pith).2.1
                  (pithAssignCalc st.pithCtr it.pith).2.2 0
                  st.nextPh pep).2.map WorkItem.hint from uf2.symm]
            exact List.mem_map_of_mem WorkItem.hint hw
          exact hintWfList_mem pep hwfr w.hint this
      · exact uf2
      · intro v hv2
        show v ∈ (if np.isEmpty = true then st.scope
          else pySetInsert st.scope (ScopeVal.typs np))
        by_cases hnpe : np.isEmpty = true
        · rw [if_pos hnpe]
          exact hv2
        · rw [if_neg hnpe]
          exact (mem_pySetInsert _ _ _).mpr (Or.inl hv2)
      · intro n
        constructor
        · exact fun h => Or.inl h
        · rintro (h | ⟨heq, _⟩)
          · exact h
          · cases heq
      · intro n hn
        cases hn
      · exact (step_extra it st _ _ _ _ _ _ _ rfl hcur).1
      · intro n hn
        cases hn
  | seqStd origin child =>
    rw [hred] at hv
    rw [hred] at hwfr
    cases child with
    | some c =>
      obtain ⟨hnew, hst, hcnt⟩ :=
        finishVisit_ok it st _ _ _ _ _ _ _ st₁ new hv
      subst hnew
      subst hst
      refine ⟨?_, rfl, ?_, ?_, ?_, ?_, ?_⟩
      · refine step_inv it rest st _ _ 1 _ _ _ _ hInv ?_ ?_ ?_ ?_ ?_
        · intro j
          exact countPh_onePh _ _ st.nextPh j
        · rfl
        · intro f hf
          rcases List.mem_cons.mp hf with rfl | hf
          · show decide ('@' ∉ seqCheckPreChars it.indent _ _ _) = true
            exact decide_eq_true (seqCheckPreChars_atFree it.indent
              hpa.1 hpa.2 (typeExprChars_atFree origin))
          · rcases List.mem_cons.mp hf with rfl | hf
            · rfl
            · rcases List.mem_singleton.mp hf with rfl
              exact decide_eq_true (seqCheckSufChars_atFree it.indent)
        · intro w hw
          rcases List.mem_singleton.mp hw with rfl
          exact seqPithChildChars_atFree hpa.2
        · intro w hw
          rcases List.mem_singleton.mp hw with rfl
          exact hwfr
      · intro v hv2
        exact (mem_pySetInsert _ _ _).mpr (Or.inl hv2)
      · intro n
        constructor
        · exact fun h => Or.inl h
        · rintro (h | ⟨heq, _⟩)
          · exact h
          · cases heq
      · intro n hn
        cases hn
      · exact (step_extra it st _ _ _ _ _ _ _ rfl hcur).1
      · intro n hn
        cases hn
    | none =>
      obtain ⟨hnew, hst, hcnt⟩ :=
        finishVisit_ok it st _ _ _ _ _ _ _ st₁ new hv
      subst hnew
      subst hst
      refine ⟨?_, rfl, ?_, ?_, ?_, ?_, ?_⟩
      · refine step_inv it rest st _ [] 0 _ _ _ _ hInv ?_ ?_ ?_ ?_ ?_
        · intro j
          rw [countPh_singleton_text]
          simp [not_mem_range'_zero]
        · simp
        · intro f hf
          rcases List.mem_cons.mp hf with rfl | hf
          · show decide ('@' ∉ isinstanceChars it.pith
              (typeExprChars origin)) = true
            exact decide_eq_true
              (isinstanceChars_atFree hpith (typeExprChars_atFree origin))
          · cases hf
        · intro w hw
          cases hw
        · intro w hw
          cases hw
      · intro v hv2
        exact (mem_pySetInsert _ _ _).mpr (Or.inl hv2)
      · intro n
        constructor
        · exact fun h => Or.inl h
        · rintro (h | ⟨heq, _⟩)
          · exact h
          · cases heq
      · intro n hn
        cases hn
      · exact (step_extra it st _ _ _ _ _ _ _ rfl hcur).1
      · intro n hn
        cases hn
  | tupleFixed emptyForm args =>
    rw [hred] at hv
    rw [hred] at hwfr
    cases emptyForm with
    | true =>
      obtain ⟨hnew, hst, hcnt⟩ :=
        finishVisit_ok it st _ _ _ _ _ _ _ st₁ new hv
      subst hnew
      subst hst
      refine ⟨?_, rfl, ?_, ?_, ?_, ?_, ?_⟩
      · refine step_inv it rest st _ [] 0 _ _ _ _ hInv ?_ ?_ ?_ ?_ ?_
        · intro j
          rw [show countPh [Frag.text (tupleFixedPreChars it.indent
              (pithAssignCalc st.pithCtr it.pith).2.1),
              Frag.text (tupleEmptyChars it.indent
                (pithAssignCalc st.pithCtr it.pith).2.2),
              Frag.text (tupleFixedSufChars it.indent)] j = 0 from rfl]
          simp [not_mem_range'_zero]
        · simp
        · intro f hf
          rcases List.mem_cons.mp hf with rfl | hf
          · show decide ('@' ∉ tupleFixedPreChars it.indent _) = true
            exact decide_eq_true (tupleFixedPreChars_atFree it.indent hpa.1)
          · rcases List.mem_cons.mp hf with rfl | hf
            · show decide ('@' ∉ tupleEmptyChars it.indent _) = true
              exact decide_eq_true (tupleEmptyChars_atFree it.indent hpa.2)
            · rcases List.mem_singleton.mp hf with rfl
              exact decide_eq_true (tupleFixedSufChars_atFree it.indent)
        · intro w hw
          cases hw
        · intro w hw
          cases hw
      · intro v hv2
        exact hv2
      · intro n
        constructor
        · exact fun h => Or.inl h
        · rintro (h | ⟨heq, _⟩)
          · exact h
          · cases heq
      · intro n hn
        cases hn
      · exact (step_extra it st _ _ _ _ _ _ _ rfl hcur).1
      · intro n hn
        cases hn
    | false =>
      obtain ⟨tf1, tf2, tf3, tf4, tf5, tf6⟩ :=
        tupleChildLoop_facts it.indent (it.indent + 1)
          (pithAssignCalc st.pithCtr it.pith).2.2 hpa.2 args 0 st.nextPh
      obtain ⟨hnew, hst, hcnt⟩ :=
        finishVisit_ok it st _ _ _ _ _ _ _ st₁ new hv
      subst hnew
      subst hst
      refine ⟨?_, ?_, ?_, ?_, ?_, ?_, ?_⟩
      · refine step_inv it rest st _ _ (args.filterMap id).length _ _ _ _
          hInv ?_ ?_ ?_ ?_ ?_
        · intro j
          rw [countPh_append, countPh_cons_text, countPh_cons_text,
            countPh_singleton_text, tf3 j]
          omega
        · exact tf1
        · intro f hf
          rcases List.mem_append.mp hf with hf | hf
          · rcases List.mem_cons.mp hf with rfl | hf
            · show decide ('@' ∉ tupleFixedPreChars it.indent _) = true
              exact decide_eq_true (tupleFixedPreChars_atFree it.indent hpa.1)
            · rcases List.mem_cons.mp hf with rfl | hf
              · show decide ('@' ∉ tupleLenChars it.indent _
                  args.length) = true
                exact decide_eq_true
                  (tupleLenChars_atFree it.indent args.length hpa.2)
              · exact tf5 f hf
          · rcases List.mem_singleton.mp hf with rfl
            exact decide_eq_true (tupleFixedSufChars_atFree it.indent)
        · exact tf6
        · intro w hw
          have : w.hint ∈ args.filterMap id := by
            rw [show args.filterMap id =
                (tupleChildLoop it.indent (it.indent + 1)
                  (pithAssignCalc st.pithCtr it.pith).2.2 0
                  st.nextPh args).2.map WorkItem.hint from tf2.symm]
            exact List.mem_map_of_mem WorkItem.hint hw
          exact hintWfOpt_mem args hwfr w.hint this
      · exact tf2
      · intro v hv2
        exact hv2
      · intro n
        constructor
        · exact fun h => Or.inl h
        · rintro (h | ⟨heq, _⟩)
          · exact h
          · cases heq
      · intro n hn
        cases hn
      · exact (step_extra it st _ _ _ _ _ _ _ rfl hcur).1
      · intro n hn
        cases hn
  | forwardref name =>
    rw [hred] at hv
    rw [hred] at hwfr
    have hname : '@' ∉ name := of_decide_eq_true hwfr
    replace hv : (if '.' ∈ name
        then finishVisit it st
          [Frag.text (isinstanceChars it.pith (typistryExprChars name))] []
          (pySetInsert st.scope .typistry) st.fwdrefs st.randNeeded st.nextPh
          (pithAssignCalc st.pithCtr it.pith).1
        else finishVisit it st
          [Frag.text (strChars "isinstance(" ++ it.pith ++ strChars ", "),
           Frag.fwdref name, Frag.text (strChars ")")] []
          st.scope
          (some (match st.fwdrefs with
            | none => [name]
            | some l => pySetInsert l name))
          st.randNeeded st.nextPh
          (pithAssignCalc st.pithCtr it.pith).1) = .ok (st₁, new) := hv
    by_cases hdot : '.' ∈ name
    · rw [if_pos hdot] at hv
      obtain ⟨hnew, hst, hcnt⟩ :=
        finishVisit_ok it st _ _ _ _ _ _ _ st₁ new hv
      subst hnew
      subst hst
      refine ⟨?_, rfl, ?_, ?_, ?_, ?_, ?_⟩
      · refine step_inv it rest st _ [] 0 _ _ _ _ hInv ?_ ?_ ?_ ?_ ?_
        · intro j
          rw [countPh_singleton_text]
          simp [not_mem_range'_zero]
        · simp
        · intro f hf
          rcases List.mem_cons.mp hf with rfl | hf
          · show decide ('@' ∉ isinstanceChars it.pith
              (typistryExprChars name)) = true
            exact decide_eq_true
              (isinstanceChars_atFree hpith (typistryExprChars_atFree hname))
          · cases hf
        · intro w hw
          cases hw
        · intro w hw
          cases hw
      · intro v hv2
        exact (mem_pySetInsert _ _ _).mpr (Or.inl hv2)
      · intro n
        constructor
        · exact fun h => Or.inl h
        · rintro (h | ⟨heq, hdec⟩)
          · exact h
          · exfalso
            injection heq with heq
            rw [← heq] at hdec
            rw [decide_eq_false_iff_not] at hdec
            exact hdec hdot
      · intro n hn hq
        exact (mem_pySetInsert _ _ _).mpr (Or.inr rfl)
      · exact (step_extra it st _ _ _ _ _ _ _ rfl hcur).1
      · intro n hn hdec
        injection hn with hn
        exfalso
        rw [← hn] at hdec
        rw [decide_eq_false_iff_not] at hdec
        exact hdec hdot
    · rw [if_neg hdot] at hv
      obtain ⟨hnew, hst, hcnt⟩ :=
        finishVisit_ok it st _ _ _ _ _ _ _ st₁ new hv
      subst hnew
      subst hst
      refine ⟨?_, rfl, ?_, ?_, ?_, ?_, ?_⟩
      · refine step_inv it rest st _ [] 0 _ _ _ _ hInv ?_ ?_ ?_ ?_ ?_
        · intro j
          rw [show countPh [Frag.text (strChars "isinstance(" ++ it.pith ++
              strChars ", "), Frag.fwdref name, Frag.text (strChars ")")] j
              = 0 from rfl]
          simp [not_mem_range'_zero]
        · simp
        · intro f hf
          rcases List.mem_cons.mp hf with rfl | hf
          · show decide ('@' ∉ strChars "isinstance(" ++ it.pith ++
              strChars ", ") = true
            refine decide_eq_true ?_
            intro hmem
            rcases List.mem_append.mp hmem with hm | hm
            · rcases List.mem_append.mp hm with hm | hm
              · revert hm
                decide
              · exact hpith hm
            · revert hm
              decide
          · rcases List.mem_cons.mp hf with rfl | hf
            · exact decide_eq_true hname
            · rcases List.mem_singleton.mp hf with rfl
              decide
        · intro w hw
          cases hw
        · intro w hw
          cases hw
      · intro v hv2
        exact hv2
      · intro n
        cases hf : st.fwdrefs with
        | none =>
          show n ∈ [name] ↔ fwdMem st n ∨ _
          constructor
          · intro h
            rcases List.mem_singleton.mp h with rfl
            exact Or.inr ⟨rfl, decide_eq_false hdot⟩
          · rintro (h | ⟨heq, _⟩)
            · exfalso
              unfold fwdMem at h
              rw [hf] at h
              exact h
            · injection heq with heq
              rw [heq]
              exact List.mem_singleton.mpr rfl
        | some l =>
          show n ∈ pySetInsert l name ↔ fwdMem st n ∨ _
          rw [mem_pySetInsert]
          constructor
          · rintro (h | rfl)
            · refine Or.inl ?_
              unfold fwdMem
              rw [hf]
              exact h
            · exact Or.inr ⟨rfl, decide_eq_false hdot⟩
          · rintro (h | ⟨heq, _⟩)
            · refine Or.inl ?_
              unfold fwdMem at h
              rw [hf] at h
              exact h
            · injection heq with heq
              rw [heq]
              exact Or.inr rfl
      · intro n hn hq
        exfalso
        injection hn with hn
        rw [← hn] at hq
        rw [decide_eq_true_eq] at hq
        exact hdot hq
      · exact (step_extra it st _ _ _ _ _ _ _ rfl hcur).1
      · intro n hn _
        injection hn with hn
        have h1 : countFwd [Frag.text (strChars "isinstance(" ++ it.pith ++
            strChars ", "), Frag.fwdref name, Frag.text (strChars ")")] n
            = 1 := by
          show (if name = n then 1 else 0) = 1
          rw [if_pos hn]
        exact (step_extra it st _ _ _ _ _ _ _ rfl hcur).2 n (le_of_eq h1.symm)
  | annotated b meta =>
    rw [hred] at hv
    rw [hred] at hwfr
    replace hv : (match pep593MetaLoop it.indent
        (pithAssignCalc st.pithCtr it.pith).2.2 meta with
      | .error e => (.error e : Except Err (BfsSt × List WorkItem))
      | .ok r =>
          finishVisit it st
            (Frag.text (pep593PreChars it.indent) :: Frag.ph st.nextPh ::
             r.1 ++ [Frag.text (pep593SufChars it.indent)])
            [⟨b, st.nextPh, (pithAssignCalc st.pithCtr it.pith).2.1,
              it.indent + 1⟩]
            (r.2.foldl pySetInsert st.scope) st.fwdrefs st.randNeeded
            (st.nextPh + 1)
            (pithAssignCalc st.pithCtr it.pith).1) = .ok (st₁, new) := hv
    cases hml : pep593MetaLoop it.indent
        (pithAssignCalc st.pithCtr it.pith).2.2 meta with
    | error e =>
      rw [hml] at hv
      cases hv
    | ok r =>
      rw [hml] at hv
      obtain ⟨mf1, mf2, mf3⟩ := pep593MetaLoop_ok_facts it.indent
        (pithAssignCalc st.pithCtr it.pith).2.2 hpa.2 meta r hml
      obtain ⟨hnew, hst, hcnt⟩ :=
        finishVisit_ok it st _ _ _ _ _ _ _ st₁ new hv
      subst hnew
      subst hst
      have hwfb : hintWf b = true := by
        rw [show hintWf (Hint.annotated b meta) =
            (!b.isAnnotated && hintWf b) from rfl, Bool.and_eq_true] at hwfr
        exact hwfr.2
      refine ⟨?_, rfl, ?_, ?_, ?_, ?_, ?_⟩
      · refine step_inv it rest st _ _ 1 _ _ _ _ hInv ?_ ?_ ?_ ?_ ?_
        · intro j
          rw [countPh_append, countPh_cons_text, countPh_cons_ph,
            countPh_singleton_text, mf1 j]
          by_cases hj : st.nextPh = j
          · have : j ∈ List.range' st.nextPh 1 := by
              rw [List.mem_range'_1]
              omega
            simp [hj, this]
          · have : ¬ j ∈ List.range' st.nextPh 1 := by
              rw [List.mem_range'_1]
              omega
            simp [hj, Ne.symm hj, this]
        · rfl
        · intro f hf
          rcases List.mem_append.mp hf with hf | hf
          · rcases List.mem_cons.mp hf with rfl | hf
            · exact decide_eq_true (pep593PreChars_atFree it.indent)
            · rcases List.mem_cons.mp hf with rfl | hf
              · rfl
              · exact mf3 f hf
          · rcases List.mem_singleton.mp hf with rfl
            exact decide_eq_true (pep593SufChars_atFree it.indent)
        · intro w hw
          rcases List.mem_singleton.mp hw with rfl
          exact hpa.1
        · intro w hw
          rcases List.mem_singleton.mp hw with rfl
          exact hwfb
      · intro v hv2
        exact foldl_pySetInsert_mono r.2 st.scope v hv2
      · intro n
        constructor
        · exact fun h => Or.inl h
        · rintro (h | ⟨heq, _⟩)
          · exact h
          · cases heq
      · intro n hn
        cases hn
      · exact (step_extra it st _ _ _ _ _ _ _ rfl hcur).1
      · intro n hn
        cases hn

theorem collectFwdList_mem (qual : Bool) (n : Chars) :
    ∀ l : List Hint,
      n ∈ collectFwdList qual l ↔ ∃ c ∈ l, n ∈ collectFwd qual c := by
  intro l
  induction l with
  | nil =>
    constructor
    · intro h2
      cases h2
    · rintro ⟨c, hc, _⟩
      cases hc
  | cons h t ihl =>
    rw [show collectFwdList qual (h :: t) =
      collectFwd qual h ++ collectFwdList qual t from rfl]
    rw [List.mem_append, ihl]
    constructor
    · rintro (hh | ⟨c, hc, hn⟩)
      · exact ⟨h, List.mem_cons_self h t, hh⟩
      · exact ⟨c, List.mem_cons_of_mem h hc, hn⟩
    · rintro ⟨c, hc, hn⟩
      rcases List.mem_cons.mp hc with rfl | hc
      · exact Or.inl hn
      · exact Or.inr ⟨c, hc, hn⟩

theorem collectFwdOpt_mem (qual : Bool) (n : Chars) :
    ∀ l : List (Option Hint),
      n ∈ collectFwdOpt qual l ↔
        ∃ c ∈ l.filterMap id, n ∈ collectFwd qual c := by
  intro l
  induction l with
  | nil =>
    constructor
    · intro h2
      cases h2
    · rintro ⟨c, hc, _⟩
      cases hc
  | cons a t ihl =>
    cases a with
    | none =>
      rw [show collectFwdOpt qual (none :: t) = collectFwdOpt qual t
        from rfl]
      rw [show (none :: t).filterMap (@id (Option Hint)) = t.filterMap id
        from rfl]
      exact ihl
    | some h =>
      rw [show collectFwdOpt qual (some h :: t) =
        collectFwd qual h ++ collectFwdOpt qual t from rfl]
      rw [show (some h :: t).filterMap (@id (Option Hint)) =
        h :: t.filterMap id from rfl]
      rw [List.mem_append, ihl]
      constructor
      · rintro (hh | ⟨c, hc, hn⟩)
        · exact ⟨h, List.mem_cons_self h (t.filterMap id), hh⟩
        · exact ⟨c, List.mem_cons_of_mem h hc, hn⟩
      · rintro ⟨c, hc, hn⟩
        rcases List.mem_cons.mp hc with rfl | hc
        · exact Or.inl hn
        · exact Or.inr ⟨c, hc, hn⟩

theorem collectFwd_decomp_base (qual : Bool) (h : Hint)
    (hb : h.isAnnotated = false) (n : Chars) :
    n ∈ collectFwd qual h ↔
      ((h = .forwardref n ∧ decide ('.' ∈ n) = qual) ∨
       ∃ c ∈ enqueuedChildren h, n ∈ collectFwd qual c) := by
  cases h with
  | cls t =>
    constructor
    · intro h2
      cases h2
    · rintro (⟨heq, _⟩ | ⟨c, hc, _⟩)
      · cases heq
      · cases hc
  | stdOrigin t =>
    constructor
    · intro h2
      cases h2
    · rintro (⟨heq, _⟩ | ⟨c, hc, _⟩)
      · cases heq
      · cases hc
  | noReturn =>
    constructor
    · intro h2
      cases h2
    · rintro (⟨heq, _⟩ | ⟨c, hc, _⟩)
      · cases heq
      · cases hc
  | unsupported tag =>
    constructor
    · intro h2
      cases h2
    · rintro (⟨heq, _⟩ | ⟨c, hc, _⟩)
      · cases heq
      · cases hc
  | notPep tag =>
    constructor
    · intro h2
      cases h2
    · rintro (⟨heq, _⟩ | ⟨c, hc, _⟩)
      · cases heq
      · cases hc
  | union np pep =>
    rw [show collectFwd qual (Hint.union np pep) =
      collectFwdList qual pep from rfl]
    rw [collectFwdList_mem]
    constructor
    · intro h2
      exact Or.inr h2
    · rintro (⟨heq, _⟩ | h2)
      · cases heq
      · exact h2
  | seqStd o child =>
    cases child with
    | none =>
      constructor
      · intro h2
        cases h2
      · rintro (⟨heq, _⟩ | ⟨c, hc, _⟩)
        · cases heq
        · cases hc
    | some c =>
      rw [show collectFwd qual (Hint.seqStd o (some c)) =
        collectFwd qual c from rfl]
      constructor
      · intro h2
        exact Or.inr ⟨c, List.mem_singleton.mpr rfl, h2⟩
      · rintro (⟨heq, _⟩ | ⟨c2, hc2, hn⟩)
        · cases heq
        · rcases List.mem_singleton.mp hc2 with rfl
          exact hn
  | tupleFixed e args =>
    cases e with
    | true =>
      constructor
      · intro h2
        cases h2
      · rintro (⟨heq, _⟩ | ⟨c, hc, _⟩)
        · cases heq
        · cases hc
    | false =>
      rw [show collectFwd qual (Hint.tupleFixed false args) =
        collectFwdOpt qual args from rfl]
      rw [collectFwdOpt_mem]
      constructor
      · intro h2
        exact Or.inr h2
      · rintro (⟨heq, _⟩ | h2)
        · cases heq
        · exact h2
  | forwardref m =>
    by_cases hq : decide ('.' ∈ m) = qual
    · rw [show collectFwd qual (Hint.forwardref m) =
        (if decide ('.' ∈ m) = qual then [m] else []) from rfl, if_pos hq]
      constructor
      · intro h2
        rcases List.mem_singleton.mp h2 with rfl
        exact Or.inl ⟨rfl, hq⟩
      · rintro (⟨heq, _⟩ | ⟨c, hc, _⟩)
        · injection heq with heq
          rw [heq]
          exact List.mem_singleton.mpr rfl
        · cases hc
    · rw [show collectFwd qual (Hint.forwardref m) =
        (if decide ('.' ∈ m) = qual then [m] else []) from rfl, if_neg hq]
      constructor
      · intro h2
        cases h2
      · rintro (⟨heq, hq2⟩ | ⟨c, hc, _⟩)
        · injection heq with heq
          exfalso
          rw [heq] at hq
          exact hq hq2
        · cases hc
  | annotated b meta =>
    simp [Hint.isAnnotated] at hb

theorem collectFwd_decomp (qual : Bool) (h : Hint) (hwf : hintWf h = true)
    (n : Chars) :
    n ∈ collectFwd qual h ↔
      ((reduceHint h = .forwardref n ∧ decide ('.' ∈ n) = qual) ∨
       ∃ c ∈ enqueuedChildren (reduceHint h), n ∈ collectFwd qual c) := by
  cases h with
  | cls t => exact collectFwd_decomp_base qual (Hint.cls t) rfl n
  | stdOrigin t => exact collectFwd_decomp_base qual (Hint.stdOrigin t) rfl n
  | noReturn => exact collectFwd_decomp_base qual Hint.noReturn rfl n
  | unsupported tag =>
    exact collectFwd_decomp_base qual (Hint.unsupported tag) rfl n
  | notPep tag => exact collectFwd_decomp_base qual (Hint.notPep tag) rfl n
  | union np pep =>
    exact collectFwd_decomp_base qual (Hint.union np pep) rfl n
  | seqStd o child =>
    exact collectFwd_decomp_base qual (Hint.seqStd o child) rfl n
  | tupleFixed e args =>
    exact collectFwd_decomp_base qual (Hint.tupleFixed e args) rfl n
  | forwardref m =>
    exact collectFwd_decomp_base qual (Hint.forwardref m) rfl n
  | annotated b meta =>
    by_cases hbm : is_hint_pep593_beartype meta = true
    · rw [show reduceHint (Hint.annotated b meta) =
        (if is_hint_pep593_beartype meta = true then Hint.annotated b meta
         else b) from rfl, if_pos hbm]
      rw [show collectFwd qual (Hint.annotated b meta) =
        collectFwd qual b from rfl]
      constructor
      · intro h2
        exact Or.inr ⟨b, List.mem_singleton.mpr rfl, h2⟩
      · rintro (⟨heq, _⟩ | ⟨c, hc, hn⟩)
        · cases heq
        · rcases List.mem_singleton.mp hc with rfl
          exact hn
    · rw [show reduceHint (Hint.annotated b meta) =
        (if is_hint_pep593_beartype meta = true then Hint.annotated b meta
         else b) from rfl, if_neg hbm]
      rw [show collectFwd qual (Hint.annotated b meta) =
        collectFwd qual b from rfl]
      refine collectFwd_decomp_base qual b ?_ n
      rw [show hintWf (Hint.annotated b meta) =
        (!b.isAnnotated && hintWf b) from rfl, Bool.and_eq_true] at hwf
      rcases hwf with ⟨h1, _⟩
      cases hb2 : b.isAnnotated with
      | false => rfl
      | true =>
        rw [hb2] at h1
        simp at h1

theorem exists_child_iff (qual : Bool) (it : WorkItem) (r2 : List WorkItem)
    (hmap : r2.map WorkItem.hint = enqueuedChildren (reduceHint it.hint))
    (hwf : hintWf it.hint = true) (n : Chars) :
    ((reduceHint it.hint = .forwardref n ∧ decide ('.' ∈ n) = qual) ∨
      (∃ w ∈ r2, n ∈ collectFwd qual w.hint)) ↔
    n ∈ collectFwd qual it.hint := by
  rw [collectFwd_decomp qual it.hint hwf n]
  have hiff : (∃ w ∈ r2, n ∈ collectFwd qual w.hint) ↔
      ∃ c ∈ enqueuedChildren (reduceHint it.hint), n ∈ collectFwd qual c := by
    rw [← hmap]
    constructor
    · rintro ⟨w, hw, hn⟩
      exact ⟨w.hint, List.mem_map_of_mem WorkItem.hint hw, hn⟩
    · rintro ⟨c, hc, hn⟩
      rcases List.mem_map.mp hc with ⟨w, hw, rfl⟩
      exact ⟨w, hw, hn⟩
  rw [hiff]

theorem bfsT_master_nil (st : BfsSt) (hInv : Inv [] st) :
    (∀ id, countPh st.code id = 0) ∧
    (∀ f ∈ st.code, fragAtFree f = true) ∧
    (∀ v ∈ st.scope, v ∈ st.scope) ∧
    (∀ n, fwdMem st n ↔ (fwdMem st n ∨
      ∃ w ∈ ([] : List WorkItem), n ∈ collectFwd false w.hint)) ∧
    (∀ n, (∃ w ∈ ([] : List WorkItem), n ∈ collectFwd true w.hint) →
      ScopeVal.typistry ∈ st.scope) ∧
    (∀ n, countFwd st.code n ≤ countFwd st.code n) ∧
    (∀ n, (∃ w ∈ ([] : List WorkItem), n ∈ collectFwd false w.hint) →
      1 ≤ countFwd st.code n) ∧
    st.substs = st.nextPh := by
  refine ⟨?_, hInv.codeAtFree, fun v hv => hv, ?_, ?_, fun n => le_refl _,
    ?_, ?_⟩
  · intro id
    rw [hInv.countEq id]
    simp
  · intro n
    constructor
    · exact fun h => Or.inl h
    · rintro (h | ⟨w, hw, _⟩)
      · exact h
      · cases hw
  · rintro n ⟨w, hw, _⟩
    cases hw
  · rintro n ⟨w, hw, _⟩
    cases hw
  · have := hInv.substEq
    simpa using this

/-- The breadth-first search, run to completion from any state
satisfying the loop invariant, leaves no placeholder in the code buffer,
keeps the buffer free of the placeholder-opening character, only grows
the wrapper scope, extends the forward-reference name set by exactly the
unqualified forward-reference classnames visitable from the pending
queue, binds the beartypistry whenever a qualified forward reference is
visitable, never removes forward-reference placeholders, and embeds a
forward-reference placeholder for every visitable unqualified forward
reference. -/
theorem bfsT_master :
    ∀ (fuel : Nat) (q : List WorkItem) (st : BfsSt) (acc : List Hint)
      (stF : BfsSt) (trace : List Hint),
      Inv q st →
      bfsT fuel q st acc = (.ok stF, trace) →
      (∀ id, countPh stF.code id = 0) ∧
      (∀ f ∈ stF.code, fragAtFree f = true) ∧
      (∀ v ∈ st.scope, v ∈ stF.scope) ∧
      (∀ n, fwdMem stF n ↔ (fwdMem st n ∨
        ∃ w ∈ q, n ∈ collectFwd false w.hint)) ∧
      (∀ n, (∃ w ∈ q, n ∈ collectFwd true w.hint) →
        ScopeVal.typistry ∈ stF.scope) ∧
      (∀ n, countFwd st.code n ≤ countFwd stF.code n) ∧
      (∀ n, (∃ w ∈ q, n ∈ collectFwd false w.hint) →
        1 ≤ countFwd stF.code n) ∧
      stF.substs = stF.nextPh := by
  intro fuel
  induction fuel with
  | zero =>
    intro q st acc stF trace hInv hrun
    cases q with
    | nil =>
      rw [show bfsT 0 [] st acc = (.ok st, acc) from rfl] at hrun
      injection hrun with h1 h2
      injection h1 with h1
      subst h1
      exact bfsT_master_nil st hInv
    | cons it rest =>
      rw [show bfsT 0 (it :: rest) st acc = (.error Err.outOfFuel, acc)
        from rfl] at hrun
      injection hrun with h1 _
      injection h1
  | succ fuel ih =>
    intro q st acc stF trace hInv hrun
    cases q with
    | nil =>
      rw [show bfsT (fuel + 1) [] st acc = (.ok st, acc) from rfl] at hrun
      injection hrun with h1 h2
      injection h1 with h1
      subst h1
      exact bfsT_master_nil st hInv
    | cons it rest =>
      rw [show bfsT (fuel + 1) (it :: rest) st acc =
          (match visit it st with
           | .error e => (.error e, acc ++ [reduceHint it.hint])
           | .ok r => bfsT fuel (rest ++ r.2) r.1
               (acc ++ [reduceHint it.hint])) from rfl] at hrun
      cases hv : visit it st with
      | error e =>
        rw [hv] at hrun
        injection hrun with h1 _
        injection h1
      | ok r =>
        rw [hv] at hrun
        have hwfit : hintWf it.hint = true :=
          hInv.hintsWf it (List.mem_cons_self it rest)
        obtain ⟨hInv₁, hmap, hscope, hfwd, htyp, hcnt, hge⟩ :=
          visit_inv it rest st r.1 r.2 hInv (by rw [hv])
        obtain ⟨g1, g2, g3, g4, g5, g6, g7, g8⟩ :=
          ih (rest ++ r.2) r.1 (acc ++ [reduceHint it.hint]) stF trace
            hInv₁ hrun
        refine ⟨g1, g2, ?_, ?_, ?_, ?_, ?_, g8⟩
        · intro v hv2
          exact g3 v (hscope v hv2)
        · intro n
          rw [g4 n, hfwd n]
          constructor
          · rintro ((h | h) | ⟨w, hw, hn⟩)
            · exact Or.inl h
            · refine Or.inr ⟨it, List.mem_cons_self it rest, ?_⟩
              exact (exists_child_iff false it r.2 hmap hwfit n).mp
                (Or.inl h)
            · rcases List.mem_append.mp hw with hw | hw
              · exact Or.inr ⟨w, List.mem_cons_of_mem it hw, hn⟩
              · refine Or.inr ⟨it, List.mem_cons_self it rest, ?_⟩
                exact (exists_child_iff false it r.2 hmap hwfit n).mp
                  (Or.inr ⟨w, hw, hn⟩)
          · rintro (h | ⟨w, hw, hn⟩)
            · exact Or.inl (Or.inl h)
            · rcases List.mem_cons.mp hw with rfl | hw
              · rcases (exists_child_iff false w r.2 hmap hwfit n).mpr hn
                  with h | ⟨w2, hw2, hn2⟩
                · exact Or.inl (Or.inr h)
                · exact Or.inr ⟨w2, List.mem_append.mpr (Or.inr hw2), hn2⟩
              · exact Or.inr ⟨w, List.mem_append.mpr (Or.inl hw), hn⟩
        · rintro n ⟨w, hw, hn⟩
          rcases List.mem_cons.mp hw with rfl | hw
          · rcases (exists_child_iff true w r.2 hmap hwfit n).mpr hn
              with ⟨hre, hq⟩ | ⟨w2, hw2, hn2⟩
            · exact g3 _ (htyp n hre hq)
            · exact g5 n ⟨w2, List.mem_append.mpr (Or.inr hw2), hn2⟩
          · exact g5 n ⟨w, List.mem_append.mpr (Or.inl hw), hn⟩
        · intro n
          exact le_trans (hcnt n) (g6 n)
        · rintro n ⟨w, hw, hn⟩
          rcases List.mem_cons.mp hw with rfl | hw
          · rcases (exists_child_iff false w r.2 hmap hwfit n).mpr hn
              with ⟨hre, hq⟩ | ⟨w2, hw2, hn2⟩
            · exact le_trans (hge n hre hq) (g6 n)
            · exact g7 n ⟨w2, List.mem_append.mpr (Or.inr hw2), hn2⟩
          · exact g7 n ⟨w, List.mem_append.mpr (Or.inl hw), hn⟩

theorem hintSize_pos : ∀ h : Hint, 1 ≤ hintSize h := by
  intro h
  cases h with
  | cls t => exact le_refl 1
  | stdOrigin t => exact le_refl 1
  | noReturn => exact le_refl 1
  | unsupported t => exact le_refl 1
  | notPep t => exact le_refl 1
  | union np pep => exact Nat.le_add_right 1 _
  | seqStd o child =>
    cases child with
    | none => exact le_refl 1
    | some c => exact Nat.le_add_right 1 _
  | tupleFixed e args => exact Nat.le_add_right 1 _
  | forwardref n => exact le_refl 1
  | annotated b meta => exact Nat.le_add_right 1 _

theorem hintSizeList_mem_le :
    ∀ (l : List Hint) (c : Hint), c ∈ l → hintSize c ≤ hintSizeList l := by
  intro l
  induction l with
  | nil =>
    intro c hc
    cases hc
  | cons h t ih =>
    intro c hc
    rw [show hintSizeList (h :: t) = hintSize h + hintSizeList t from rfl]
    rcases List.mem_cons.mp hc with rfl | hc
    · exact Nat.le_add_right _ _
    · exact le_trans (ih c hc) (Nat.le_add_left _ _)

theorem hintSizeOpt_mem_le :
    ∀ (l : List (Option Hint)) (c : Hint), c ∈ l.filterMap id →
      hintSize c ≤ hintSizeOpt l := by
  intro l
  induction l with
  | nil =>
    intro c hc
    cases hc
  | cons a t ih =>
    intro c hc
    cases a with
    | none =>
      rw [show hintSizeOpt (none :: t) = hintSizeOpt t from rfl]
      rw [show (none :: t).filterMap (@id (Option Hint)) = t.filterMap id
        from rfl] at hc
      exact ih c hc
    | some hh =>
      rw [show hintSizeOpt (some hh :: t) = hintSize hh + hintSizeOpt t
        from rfl]
      rw [show (some hh :: t).filterMap (@id (Option Hint)) =
        hh :: t.filterMap id from rfl] at hc
      rcases List.mem_cons.mp hc with rfl | hc
      · exact Nat.le_add_right _ _
      · exact le_trans (ih c hc) (Nat.le_add_left _ _)

theorem mem_collectFwd_qual (qual : Bool) :
    ∀ (k : Nat) (h : Hint), hintSize h ≤ k →
      ∀ n ∈ collectFwd qual h, decide ('.' ∈ n) = qual := by
  intro k
  induction k with
  | zero =>
    intro h hle n hn
    exact absurd hle (by have := hintSize_pos h; omega)
  | succ k ihk =>
    intro h hle n hn
    cases h with
    | cls t => cases hn
    | stdOrigin t => cases hn
    | noReturn => cases hn
    | unsupported t => cases hn
    | notPep t => cases hn
    | forwardref m =>
      by_cases hq : decide ('.' ∈ m) = qual
      · rw [show collectFwd qual (Hint.forwardref m) =
          (if decide ('.' ∈ m) = qual then [m] else []) from rfl,
          if_pos hq] at hn
        rcases List.mem_singleton.mp hn with rfl
        exact hq
      · rw [show collectFwd qual (Hint.forwardref m) =
          (if decide ('.' ∈ m) = qual then [m] else []) from rfl,
          if_neg hq] at hn
        cases hn
    | union np pep =>
      rw [show collectFwd qual (Hint.union np pep) =
        collectFwdList qual pep from rfl, collectFwdList_mem] at hn
      obtain ⟨c, hc, hnc⟩ := hn
      refine ihk c ?_ n hnc
      have h1 := hintSizeList_mem_le pep c hc
      rw [show hintSize (Hint.union np pep) = 1 + hintSizeList pep
        from rfl] at hle
      omega
    | seqStd o child =>
      cases child with
      | none => cases hn
      | some c =>
        refine ihk c ?_ n hn
        rw [show hintSize (Hint.seqStd o (some c)) = 1 + hintSize c
          from rfl] at hle
        omega
    | tupleFixed e args =>
      cases e with
      | true => cases hn
      | false =>
        rw [show collectFwd qual (Hint.tupleFixed false args) =
          collectFwdOpt qual args from rfl, collectFwdOpt_mem] at hn
        obtain ⟨c, hc, hnc⟩ := hn
        refine ihk c ?_ n hnc
        have h1 := hintSizeOpt_mem_le args c hc
        rw [show hintSize (Hint.tupleFixed false args) =
          1 + hintSizeOpt args from rfl] at hle
        omega
    | annotated b meta =>
      refine ihk b ?_ n hn
      rw [show hintSize (Hint.annotated b meta) = 1 + hintSize b
        from rfl] at hle
      omega

theorem mem_collectFwd_dot (qual : Bool) (h : Hint) (n : Chars)
    (hn : n ∈ collectFwd qual h) : decide ('.' ∈ n) = qual :=
  mem_collectFwd_qual qual (hintSize h) h (le_refl _) n hn

theorem render_at_free : ∀ (l : List Frag),
    (∀ j, countPh l j = 0) → (∀ f ∈ l, fragAtFree f = true) →
    '@' ∉ render l := by
  intro l
  induction l with
  | nil =>
    intro _ _ hmem
    cases hmem
  | cons f t ih =>
    intro hph hat hmem
    rw [show render (f :: t) = renderFrag f ++ render t from rfl] at hmem
    rcases List.mem_append.mp hmem with hm | hm
    · cases f with
      | text s =>
        have hf := hat (Frag.text s) (List.mem_cons_self _ _)
        rw [show fragAtFree (Frag.text s) = decide ('@' ∉ s) from rfl] at hf
        exact absurd hm (of_decide_eq_true hf)
      | ph k =>
        have hk := hph k
        rw [show countPh (Frag.ph k :: t) k =
          (if k = k then 1 else 0) + countPh t k from rfl, if_pos rfl] at hk
        omega
      | fwdref m =>
        have hf := hat (Frag.fwdref m) (List.mem_cons_self _ _)
        rw [show fragAtFree (Frag.fwdref m) = decide ('@' ∉ m) from rfl]
          at hf
        have hmn := of_decide_eq_true hf
        rw [show renderFrag (Frag.fwdref m) =
          fwdOpenChars ++ m ++ fwdCloseChars from rfl] at hm
        rcases List.mem_append.mp hm with hm | hm
        · rcases List.mem_append.mp hm with hm | hm
          · revert hm
            decide
          · exact hmn hm
        · revert hm
          decide
    · refine ih (fun j => ?_) (fun g hg => hat g (List.mem_cons_of_mem f hg))
        hm
      have hj := hph j
      cases f with
      | text s =>
        rw [show countPh (Frag.text s :: t) j = countPh t j from rfl] at hj
        exact hj
      | ph k =>
        rw [show countPh (Frag.ph k :: t) j =
          (if k = j then 1 else 0) + countPh t j from rfl] at hj
        omega
      | fwdref m =>
        rw [show countPh (Frag.fwdref m :: t) j = countPh t j from rfl] at hj
        exact hj

theorem not_infix_phText (l : List Frag) (id : Nat)
    (hfree : '@' ∉ render l) :
    ¬ List.IsInfix (phText id) (render l) := by
  intro hinf
  apply hfree
  refine hinf.subset ?_
  rw [show phText id = '@' :: ('[' :: decChars id ++ [')', '!']) from by
    unfold phText phOpenChars phCloseChars
    simp]
  exact List.mem_cons_self _ _

theorem countFwd_pos_mem : ∀ (l : List Frag) (n : Chars),
    1 ≤ countFwd l n → Frag.fwdref n ∈ l := by
  intro l
  induction l with
  | nil =>
    intro n hn
    rw [show countFwd [] n = 0 from rfl] at hn
    omega
  | cons f t ih =>
    intro n hn
    cases f with
    | text s =>
      rw [show countFwd (Frag.text s :: t) n = countFwd t n from rfl] at hn
      exact List.mem_cons_of_mem _ (ih n hn)
    | ph k =>
      rw [show countFwd (Frag.ph k :: t) n = countFwd t n from rfl] at hn
      exact List.mem_cons_of_mem _ (ih n hn)
    | fwdref m =>
      by_cases hm : m = n
      · rw [hm]
        exact List.mem_cons_self _ _
      · rw [countFwd_cons_fwdref, if_neg hm] at hn
        exact List.mem_cons_of_mem _ (ih n (by omega))

theorem renderFrag_infix : ∀ (l : List Frag) (f : Frag), f ∈ l →
    List.IsInfix (renderFrag f) (render l) := by
  intro l
  induction l with
  | nil =>
    intro f hf
    cases hf
  | cons g t ih =>
    intro f hf
    rcases List.mem_cons.mp hf with rfl | hf
    · exact ⟨[], render t, by
        rw [show render (f :: t) = renderFrag f ++ render t from rfl]
        simp⟩
    · obtain ⟨s, u, hsu⟩ := ih f hf
      exact ⟨renderFrag g ++ s, u, by
        rw [show render (g :: t) = renderFrag g ++ render t from rfl, ← hsu]
        simp⟩

theorem init_inv (h : Hint) (hwf : hintWf h = true) :
    Inv [initWorkItem h] initBfsSt := by
  refine ⟨?_, ?_, ?_, ?_, ?_, ?_, ?_⟩
  · intro id
    show (if 0 = id then 1 else 0) + 0 = if id ∈ [(0 : Nat)] then 1 else 0
    by_cases h0 : id = 0
    · simp [h0]
    · simp [h0, Ne.symm h0]
  · show ([0] : List Nat).Nodup
    exact List.nodup_singleton 0
  · intro it2 hit
    rcases List.mem_singleton.mp hit with rfl
    exact Nat.zero_lt_one
  · rfl
  · intro f hf
    rcases List.mem_cons.mp hf with rfl | hf
    · decide
    · rcases List.mem_singleton.mp hf with rfl
      rfl
  · intro it2 hit
    rcases List.mem_singleton.mp hit with rfl
    show '@' ∉ pithRootChars
    decide
  · intro it2 hit
    rcases List.mem_singleton.mp hit with rfl
    exact hwf

/-- C5: at successful termination of the breadth-first search, every
child placeholder ever minted has been substituted away exactly once:
the final wrapper code buffer contains no placeholder fragment, no
placeholder token substring survives in the rendered returned
expression text, and the number of placeholders minted (one per
enqueued work item, the root included) equals the number of
substitutions performed by the loop. -/
theorem claim5_placeholder_exhaustion (h : Hint) (hwf : hintWf h = true)
    (out : CheckOut) (hok : pep_code_check_hint h = .ok out) :
    (∀ id, countPh out.code id = 0) ∧
    (∀ id, ¬ List.IsInfix (phText id) (render out.code)) ∧
    (∃ stF, (bfsRun h).1 = .ok stF ∧ stF.substs = stF.nextPh) := by
  unfold pep_code_check_hint at hok
  cases hrun : (bfsRun h).1 with
  | error e =>
    rw [hrun] at hok
    cases hok
  | ok stF =>
    rw [hrun] at hok
    have hpair : bfsT (hintSize h) [initWorkItem h] initBfsSt [] =
        (.ok stF, (bfsRun h).2) := by
      rw [show bfsT (hintSize h) [initWorkItem h] initBfsSt [] = bfsRun h
        from rfl]
      exact Prod.ext_iff.mpr ⟨hrun, rfl⟩
    obtain ⟨m1, m2, m3, m4, m5, m6, m7, m8⟩ :=
      bfsT_master (hintSize h) [initWorkItem h] initBfsSt [] stF
        ((bfsRun h).2) (init_inv h hwf) hpair
    replace hok : finalizeChecked stF.code stF.scope stF.fwdrefs
        stF.randNeeded = .ok out := hok
    unfold finalizeChecked at hok
    by_cases hroot : stF.code = funcRootCode
    · rw [if_pos hroot] at hok
      cases hok
    · rw [if_neg hroot] at hok
      injection hok with hok
      subst hok
      have hcnt : ∀ id, countPh
          (stF.code ++ [Frag.text (rootSufChars stF.randNeeded)]) id = 0 := by
        intro id
        rw [countPh_append, countPh_singleton_text, m1 id]
      refine ⟨hcnt, ?_, stF, rfl, m8⟩
      intro id
      refine not_infix_phText _ id ?_
      refine render_at_free _ hcnt ?_
      intro f hf
      rcases List.mem_append.mp hf with hf | hf
      · exact m2 f hf
      · rcases List.mem_singleton.mp hf with rfl
        exact decide_eq_true (rootSufChars_atFree stF.randNeeded)

/-- C9: the third component of the returned 3-tuple contains exactly
the classnames of the visitable forward-reference hints whose name has
no `'.'` character; each such unqualified classname also has a
second-stage forward-reference placeholder embedded in the returned
code text; a qualified classname (containing `'.'`) instead causes the
beartypistry to be bound into the returned scope and never appears in
the returned name set, which is empty when no unqualified forward
reference is visitable. -/
theorem claim9_forwardrefs (h : Hint) (hwf : hintWf h = true)
    (out : CheckOut) (hok : pep_code_check_hint h = .ok out) :
    (∀ n, n ∈ out.fwdrefs ↔ n ∈ collectFwd false h) ∧
    (∀ n, n ∈ collectFwd false h →
      List.IsInfix (fwdOpenChars ++ n ++ fwdCloseChars) (render out.code)) ∧
    ((∃ n, n ∈ collectFwd true h) → ScopeVal.typistry ∈ out.scope) ∧
    (∀ n, n ∈ collectFwd true h → n ∉ out.fwdrefs) ∧
    (collectFwd false h = [] → out.fwdrefs = []) := by
  unfold pep_code_check_hint at hok
  cases hrun : (bfsRun h).1 with
  | error e =>
    rw [hrun] at hok
    cases hok
  | ok stF =>
    rw [hrun] at hok
    have hpair : bfsT (hintSize h) [initWorkItem h] initBfsSt [] =
        (.ok stF, (bfsRun h).2) := by
      rw [show bfsT (hintSize h) [initWorkItem h] initBfsSt [] = bfsRun h
        from rfl]
      exact Prod.ext_iff.mpr ⟨hrun, rfl⟩
    obtain ⟨m1, m2, m3, m4, m5, m6, m7, m8⟩ :=
      bfsT_master (hintSize h) [initWorkItem h] initBfsSt [] stF
        ((bfsRun h).2) (init_inv h hwf) hpair
    replace hok : finalizeChecked stF.code stF.scope stF.fwdrefs
        stF.randNeeded = .ok out := hok
    unfold finalizeChecked at hok
    by_cases hroot : stF.code = funcRootCode
    · rw [if_pos hroot] at hok
      cases hok
    · rw [if_neg hroot] at hok
      injection hok with hok
      subst hok
      have hmem : ∀ n, n ∈ (match stF.fwdrefs with
          | none => ([] : List Chars) | some l => l) ↔
          n ∈ collectFwd false h := by
        intro n
        constructor
        · intro hn
          have hstf : fwdMem stF n := by
            cases hf : stF.fwdrefs with
            | none =>
              rw [hf] at hn
              cases hn
            | some l =>
              rw [hf] at hn
              unfold fwdMem
              rw [hf]
              exact hn
          rcases (m4 n).mp hstf with hfalse | ⟨w, hw, hn2⟩
          · cases hfalse
          · rcases List.mem_singleton.mp hw with rfl
            exact hn2
        · intro hn
          have hstf : fwdMem stF n := (m4 n).mpr (Or.inr ⟨initWorkItem h,
            List.mem_singleton.mpr rfl, hn⟩)
          cases hf : stF.fwdrefs with
          | none =>
            exfalso
            unfold fwdMem at hstf
            rw [hf] at hstf
            exact hstf
          | some l =>
            unfold fwdMem at hstf
            rw [hf] at hstf
            exact hstf
      refine ⟨fun n => hmem n, ?_, ?_, ?_, ?_⟩
      · intro n hn
        have hge : 1 ≤ countFwd stF.code n :=
          m7 n ⟨initWorkItem h, List.mem_singleton.mpr rfl, hn⟩
        have hge2 : 1 ≤ countFwd (stF.code ++
            [Frag.text (rootSufChars stF.randNeeded)]) n := by
          rw [countFwd_append]
          omega
        exact renderFrag_infix _ _ (countFwd_pos_mem _ n hge2)
      · rintro ⟨n, hn⟩
        have hty : ScopeVal.typistry ∈ stF.scope :=
          m5 n ⟨initWorkItem h, List.mem_singleton.mpr rfl, hn⟩
        show ScopeVal.typistry ∈ (if stF.randNeeded = true then
          pySetInsert stF.scope ScopeVal.getrandbits else stF.scope)
        by_cases hr : stF.randNeeded = true
        · rw [if_pos hr]
          exact (mem_pySetInsert _ _ _).mpr (Or.inl hty)
        · rw [if_neg hr]
          exact hty
      · intro n hnq hnf
        have h1 := (hmem n).mp hnf
        have hd1 := mem_collectFwd_dot false h n h1
        have hd2 := mem_collectFwd_dot true h n hnq
        rw [hd1] at hd2
        simp at hd2
      · intro hempty
        show (match stF.fwdrefs with
          | none => ([] : List Chars)
          | some l => l) = []
        cases hf : stF.fwdrefs with
        | none => rfl
        | some l =>
          cases l with
          | nil => rfl
          | cons a t =>
            exfalso
            have hma : a ∈ (match stF.fwdrefs with
                | none => ([] : List Chars) | some l => l) := by
              rw [hf]
              exact List.mem_cons_self a t
            have := (hmem a).mp hma
            rw [hempty] at this
            cases this

/-- Witness for C5 at the concrete root hint `List[SomeClass]`
(a standard sequence whose child is a plain class). -/
theorem claim5_witness :
    hintWf (Hint.seqStd 0 (some (Hint.cls 1))) = true ∧
    ∃ out, pep_code_check_hint (Hint.seqStd 0 (some (Hint.cls 1))) =
        .ok out ∧ ∀ id, countPh out.code id = 0 := by
  refine ⟨rfl, ?_⟩
  obtain ⟨out, hok⟩ : ∃ out,
      pep_code_check_hint (Hint.seqStd 0 (some (Hint.cls 1))) = .ok out := by
    cases hcase : pep_code_check_hint (Hint.seqStd 0 (some (Hint.cls 1))) with
    | error e => injection hcase
    | ok out => exact ⟨out, rfl⟩
  exact ⟨out, hok,
    (claim5_placeholder_exhaustion (Hint.seqStd 0 (some (Hint.cls 1))) rfl
      out hok).1⟩

/-- Witness for C9 at the concrete root hint `List["Muh"]` (a standard
sequence whose child is an unqualified forward reference). -/
theorem claim9_witness :
    hintWf (Hint.seqStd 0 (some (Hint.forwardref (strChars "Muh")))) =
      true ∧
    ∃ out, pep_code_check_hint
        (Hint.seqStd 0 (some (Hint.forwardref (strChars "Muh")))) =
        .ok out ∧
      (∀ n, n ∈ out.fwdrefs ↔ n ∈ collectFwd false
        (Hint.seqStd 0 (some (Hint.forwardref (strChars "Muh"))))) := by
  refine ⟨rfl, ?_⟩
  obtain ⟨out, hok⟩ : ∃ out, pep_code_check_hint
      (Hint.seqStd 0 (some (Hint.forwardref (strChars "Muh")))) =
      .ok out := by
    cases hcase : pep_code_check_hint
        (Hint.seqStd 0 (some (Hint.forwardref (strChars "Muh")))) with
    | error e => injection hcase
    | ok out => exact ⟨out, rfl⟩
  exact ⟨out, hok,
    (claim9_forwardrefs
      (Hint.seqStd 0 (some (Hint.forwardref (strChars "Muh")))) rfl
      out hok).1⟩

end BeartypePep
